import Mathlib

/-!
Verification of the controlled-generation core of the LLM-CAD repository.

The Python sources are shallowly embedded:
* Python dicts (including `collections.defaultdict`) become association
  lists over `String` keys with insertion-order semantics;
* Python sets become duplicate-free lists (`setAdd` inserts only fresh
  elements); iteration order of a modelled set is its insertion order —
  every property proved below is independent of set iteration order;
* real arithmetic on part locations and parsed dimensions is modelled
  over `Rat`; the comparison `sqrt (dx^2 + dy^2) < t` is modelled by the
  equivalent `dx^2 + dy^2 < t^2` (both sides non-negative);
* code that can raise becomes `Except PyErr`; an unbound Python name
  (`NameError`), a missing dict key on `del` or `[]` (`KeyError`) and an
  attribute access on `None` (`AttributeError`) are the errors that occur;
* diagnostic message strings built with `f"..."` interpolation of floats
  are modelled as structured values carrying the interpolated data.
-/

namespace LLMCAD

/-- Python dict as an insertion-ordered association list. -/
abbrev PyDict (α : Type) := List (String × α)

/-- Dict lookup (`d.get(k)` / `k in d` support). -/
def dGet {α : Type} : PyDict α → String → Option α
  | [], _ => none
  | (k, v) :: rest, key => if k = key then some v else dGet rest key

/-- Membership of a key (`k in d`). -/
def dMem {α : Type} (d : PyDict α) (key : String) : Bool :=
  (dGet d key).isSome

/-- Dict store `d[k] = v`: overwrite in place, else append (insertion order kept). -/
def dSet {α : Type} : PyDict α → String → α → PyDict α
  | [], key, v => [(key, v)]
  | (k, w) :: rest, key, v =>
      if k = key then (k, v) :: rest else (k, w) :: dSet rest key v

/-- Model of `del d[k]` for a key known to be present; totalised as erase-first. -/
def dDel {α : Type} : PyDict α → String → PyDict α
  | [], _ => []
  | (k, v) :: rest, key => if k = key then rest else (k, v) :: dDel rest key

/-- Model of `defaultdict.__getitem__`: reading a missing key inserts the default and
returns it. -/
def ddGet {α : Type} (d : PyDict α) (key : String) (dfl : α) : α × PyDict α :=
  match dGet d key with
  | some v => (v, d)
  | none => (dfl, d ++ [(key, dfl)])

/-- Key list of a dict, insertion order. -/
def dKeys {α : Type} (d : PyDict α) : List String := d.map Prod.fst

/-- Python set add: insert only if absent, at the end (our iteration order). -/
def setAdd (l : List String) (x : String) : List String :=
  if x ∈ l then l else l ++ [x]

/-- Python set discard: removes the element when present, no error otherwise. -/
def setDiscard (l : List String) (x : String) : List String := l.erase x

/-- Python runtime errors that the embedded code can raise. -/
inductive PyErr : Type
  | nameError (n : String)
  | keyError (k : String)
  | attributeError (m : String)
  | valueError (m : String)
  | indexError
  | exception (m : String)
  deriving DecidableEq, Repr

/-- Python list indexing `l[i]` for a non-negative index: `IndexError` when
out of range. -/
def pyIndex {α : Type} (l : List α) (i : Nat) : Except PyErr α :=
  match l.get? i with
  | some v => .ok v
  | none => .error .indexError

/-! ## `src/core/part_graph.py` -/

/-- Model of `Part` dataclass from `src/core/part_graph.py`. -/
structure Part where
  name : String
  description : String := ""
  location : List Rat := [0, 0, 0]
  operation : String := "extrude"
  code : String := ""
  parameters : PyDict Rat := []
  dependencies : List String := []
  dependents : List String := []
  is_dirty : Bool := false
  is_locked : Bool := false
  deriving DecidableEq, Repr

/-- Model of `PartGraph` state: the `parts` dict plus the two adjacency defaultdicts
(`_adj_list`: part → its dependencies; `_rev_adj_list`: part → its dependents). -/
structure PartGraph where
  parts : PyDict Part := []
  adj : PyDict (List String) := []
  rev : PyDict (List String) := []
  deriving DecidableEq, Repr

/-- Fresh graph (`PartGraph.__init__`). -/
def PartGraph.empty : PartGraph := {}

/-- Model of `PartGraph.add_part`: register the part, record both edge directions, and
append to an already-registered dependency's `dependents` list. -/
def PartGraph.add_part (g : PartGraph) (part : Part) : PartGraph :=
  let g := { g with parts := dSet g.parts part.name part }
  part.dependencies.foldl
    (fun g dep =>
      let (s, adj) := ddGet g.adj part.name []
      let g := { g with adj := dSet adj part.name (setAdd s dep) }
      let (r, rev) := ddGet g.rev dep []
      let g := { g with rev := dSet rev dep (setAdd r part.name) }
      match dGet g.parts dep with
      | some p =>
          let p2 := { p with dependents := p.dependents ++ [part.name] }
          { g with parts := dSet g.parts dep p2 }
      | none => g)
    g

/-- Body of the first repair loop of `PartGraph.remove_part` (`for dep in
part.dependencies`): discard the removed name from the dependents set of
`dep` (a defaultdict read, so a missing key is created), and erase it from
the `dependents` list of `dep` when `dep` is registered. -/
def removeDepF (name : String) (g : PartGraph) (dep : String) : PartGraph :=
  let pr := ddGet g.rev dep []
  let rev2 := dSet pr.2 dep (setDiscard pr.1 name)
  match dGet g.parts dep with
  | some p =>
      let p2 := { p with dependents := p.dependents.erase name }
      { g with rev := rev2, parts := dSet g.parts dep p2 }
  | none => { g with rev := rev2 }

/-- Body of the second repair loop of `PartGraph.remove_part` (`for
dependent in part.dependents`), symmetric to `removeDepF`. -/
def removeDependentF (name : String) (g : PartGraph) (dependent : String) : PartGraph :=
  let pr := ddGet g.adj dependent []
  let adj2 := dSet pr.2 dependent (setDiscard pr.1 name)
  match dGet g.parts dependent with
  | some p =>
      let p2 := { p with dependencies := p.dependencies.erase name }
      { g with adj := adj2, parts := dSet g.parts dependent p2 }
  | none => { g with adj := adj2 }

/-- Model of `PartGraph.remove_part`.  The two `del` statements on the adjacency
defaultdicts raise `KeyError` when the part has no entry there; Python
raises at the first failing `del` (after the two repair loops have already
mutated the graph in place), which this embedding reports as the same
`KeyError` value. -/
def PartGraph.remove_part (g : PartGraph) (name : String) : Except PyErr PartGraph :=
  match dGet g.parts name with
  | none => .ok g
  | some part =>
    let g1 := part.dependencies.foldl (removeDepF name) g
    let g2 := part.dependents.foldl (removeDependentF name) g1
    if dMem g2.adj name then
      if dMem g2.rev name then
        .ok { parts := dDel g2.parts name, adj := dDel g2.adj name,
              rev := dDel g2.rev name }
      else .error (.keyError name)
    else .error (.keyError name)

/-- Model of `PartGraph.mark_dirty`. -/
def PartGraph.mark_dirty (g : PartGraph) (name : String) : PartGraph :=
  match dGet g.parts name with
  | some p => { g with parts := dSet g.parts name { p with is_dirty := true } }
  | none => g

/-- Model of `PartGraph.mark_clean`. -/
def PartGraph.mark_clean (g : PartGraph) (name : String) : PartGraph :=
  match dGet g.parts name with
  | some p => { g with parts := dSet g.parts name { p with is_dirty := false } }
  | none => g

/-- Model of `PartGraph.get_dirty_parts`. -/
def PartGraph.get_dirty_parts (g : PartGraph) : List String :=
  (g.parts.filter (fun kv => kv.2.is_dirty)).map Prod.fst

/-- Dependents read `self._rev_adj_list[n]`: a missing key yields the empty
set (the defaultdict key insertion this performs does not change any later
lookup result, so the read is modelled purely). -/
def PartGraph.revOf (g : PartGraph) (n : String) : List String :=
  (dGet g.rev n).getD []

/-- Dependency read `self._adj_list[n]`, same convention. -/
def PartGraph.adjOf (g : PartGraph) (n : String) : List String :=
  (dGet g.adj n).getD []

/-- The nested `dfs` of `get_affected_parts` / `get_dependencies`: the
neighbours of an unvisited node are each appended to the accumulator and
recursed into; the append happens before the visited check of the
neighbour.  `nbr` is the adjacency read; the fuel only makes the recursion
structural and is chosen large enough to never run out. -/
def pyDfs (nbr : String → List String) : Nat → List String → List String →
    String → List String × List String
  | 0, vis, acc, _ => (vis, acc)
  | f + 1, vis, acc, n =>
      if n ∈ vis then (vis, acc)
      else (nbr n).foldl
        (fun (p : List String × List String) d => pyDfs nbr f p.1 (p.2 ++ [d]) d)
        (vis ++ [n], acc)

/-- The `for dependent in ...` loop of the nested `dfs`, as a fold. -/
def pyDfsList (nbr : String → List String) (f : Nat) (vis acc l : List String) :
    List String × List String :=
  l.foldl (fun (p : List String × List String) d => pyDfs nbr f p.1 (p.2 ++ [d]) d)
    (vis, acc)

/-- Fuel bound for the traversals: one more than the number of names the
adjacency map can ever hand out, plus the start name. -/
def dfsFuel (d : PyDict (List String)) (name : String) : Nat :=
  (name :: (d.map Prod.snd).flatten).length + 1

/-- Model of `PartGraph.get_affected_parts`: depth-first walk of the dependents map. -/
def PartGraph.get_affected_parts (g : PartGraph) (name : String) : List String :=
  (pyDfs g.revOf (dfsFuel g.rev name) [] [] name).2

/-- Model of `PartGraph.get_dependencies`: the same walk over the dependency map. -/
def PartGraph.get_dependencies (g : PartGraph) (name : String) : List String :=
  (pyDfs g.adjOf (dfsFuel g.adj name) [] [] name).2

/-- Processing of one popped node in `PartGraph.topological_sort`: the
`for dependent in self._rev_adj_list[node]` loop that decrements the
in-degree of every dependent that is a key of `in_degree`, enqueueing those
whose degree reaches zero. -/
def kahnFoldF (p : PyDict Int × List String) (dependent : String) :
    PyDict Int × List String :=
  match dGet p.1 dependent with
  | some v =>
      let i2 := dSet p.1 dependent (v - 1)
      if v - 1 = 0 then (i2, p.2 ++ [dependent]) else (i2, p.2)
  | none => p

def kahnStep (g : PartGraph) (node : String) (ind : PyDict Int) (queue : List String) :
    PyDict Int × List String :=
  (g.revOf node).foldl kahnFoldF (ind, queue)

/-- The Kahn `while queue:` loop in `PartGraph.topological_sort`: pop the
queue head into the result and process it with `kahnStep`.  The loop pops
each part at most once, so the fuel is never exhausted. -/
def kahnLoop (g : PartGraph) : Nat → PyDict Int → List String → List String →
    List String
  | 0, _, _, result => result
  | f + 1, indeg, queue, result =>
      match queue with
      | [] => result
      | node :: rest =>
          kahnLoop g f (kahnStep g node indeg rest).1 (kahnStep g node indeg rest).2
            (result ++ [node])

/-- One dependency edge of part k seen while building `in_degree`: bump
k's count when the edge target is a key of the dict. -/
def bumpF (k : String) (ind : PyDict Int) (dep : String) : PyDict Int :=
  if dMem ind dep then
    match dGet ind k with
    | some v => dSet ind k (v + 1)
    | none => ind
  else ind

/-- The in-degree dict built at the top of `PartGraph.topological_sort`:
every part starts at 0, then one increment per dependency edge whose target
is a key of `in_degree`. -/
def initIndeg (g : PartGraph) : PyDict Int :=
  g.parts.foldl
    (fun (ind : PyDict Int) kv => (g.adjOf kv.1).foldl (bumpF kv.1) ind)
    (g.parts.map (fun kv => (kv.1, 0)))

/-- Model of `PartGraph.topological_sort`: in-degrees count only dependency edges
whose target is a registered part; the queue starts with the zero
in-degree parts in part-insertion order. -/
def PartGraph.topological_sort (g : PartGraph) : List String :=
  kahnLoop g (g.parts.length + 1) (initIndeg g)
    (((initIndeg g).filter (fun kv => kv.2 = 0)).map Prod.fst) []

/-- Model of `PartGraph.get_unlocked_parts`. -/
def PartGraph.get_unlocked_parts (g : PartGraph) : List String :=
  (g.parts.filter (fun kv => !kv.2.is_locked)).map Prod.fst

/-- Model of `PartGraph.lock_part`. -/
def PartGraph.lock_part (g : PartGraph) (name : String) : PartGraph :=
  match dGet g.parts name with
  | some p => { g with parts := dSet g.parts name { p with is_locked := true } }
  | none => g

/-- Model of `PartGraph.unlock_part`. -/
def PartGraph.unlock_part (g : PartGraph) (name : String) : PartGraph :=
  match dGet g.parts name with
  | some p => { g with parts := dSet g.parts name { p with is_locked := false } }
  | none => g

/-- One item of a plan, the JSON-like dict shape consumed by `from_plan`
and `PlanValidator`; a `none` field is a key the dict does not carry. -/
structure PlanItem where
  name : Option String := none
  description : Option String := none
  location : Option (List Rat) := none
  operation : Option String := none
  dependencies : Option (List String) := none
  deriving DecidableEq, Repr

/-- Model of `PartGraph.from_plan`: reset the graph and add one part per plan item,
reading every field with a `.get` default. -/
def PartGraph.from_plan (plan : List PlanItem) : PartGraph :=
  plan.foldl
    (fun g item =>
      g.add_part
        { name := item.name.getD "part"
          description := item.description.getD ""
          location := item.location.getD [0, 0, 0]
          operation := item.operation.getD "extrude"
          dependencies := item.dependencies.getD [] })
    PartGraph.empty

/-! ### Depth-first traversal: reachability characterisation -/

/-- Edge relation read off an adjacency function: b is listed among the
direct neighbours of a. -/
def stepRel (nbr : String → List String) (a b : String) : Prop := b ∈ nbr a

theorem pyDfs_zero (nbr : String → List String) (vis acc : List String) (n : String) :
    pyDfs nbr 0 vis acc n = (vis, acc) := by
  simp [pyDfs]

theorem pyDfs_succ (nbr : String → List String) (f : Nat) (vis acc : List String)
    (n : String) :
    pyDfs nbr (f + 1) vis acc n =
      if n ∈ vis then (vis, acc) else pyDfsList nbr f (vis ++ [n]) acc (nbr n) := by
  simp [pyDfs, pyDfsList]

theorem pyDfsList_nil (nbr : String → List String) (f : Nat) (vis acc : List String) :
    pyDfsList nbr f vis acc [] = (vis, acc) := by
  cases f <;> simp [pyDfsList]

theorem pyDfsList_cons (nbr : String → List String) (f : Nat) (vis acc : List String)
    (d : String) (ds : List String) :
    pyDfsList nbr f vis acc (d :: ds) =
      pyDfsList nbr f (pyDfs nbr f vis (acc ++ [d]) d).1
        (pyDfs nbr f vis (acc ++ [d]) d).2 ds := by
  cases f <;> simp [pyDfsList]

theorem pyDfsList_shape_of (nbr : String → List String) (f : Nat)
    (hd : ∀ vis acc n, ∃ nv na, pyDfs nbr f vis acc n = (vis ++ nv, acc ++ na)) :
    ∀ l vis acc, ∃ nv na, pyDfsList nbr f vis acc l = (vis ++ nv, acc ++ na) := by
  intro l
  induction l with
  | nil =>
      intro vis acc
      exact ⟨[], [], by simp [pyDfsList_nil]⟩
  | cons d ds ih =>
      intro vis acc
      obtain ⟨nv1, na1, h1⟩ := hd vis (acc ++ [d]) d
      obtain ⟨nv2, na2, h2⟩ := ih (vis ++ nv1) (acc ++ [d] ++ na1)
      refine ⟨nv1 ++ nv2, [d] ++ na1 ++ na2, ?_⟩
      rw [pyDfsList_cons, h1]
      simpa [List.append_assoc] using h2

theorem pyDfs_shape (nbr : String → List String) (f : Nat) :
    ∀ vis acc n, ∃ nv na, pyDfs nbr f vis acc n = (vis ++ nv, acc ++ na) := by
  induction f with
  | zero =>
      intro vis acc n
      exact ⟨[], [], by simp [pyDfs_zero]⟩
  | succ f ih =>
      intro vis acc n
      rw [pyDfs_succ]
      by_cases h : n ∈ vis
      · exact ⟨[], [], by simp [h]⟩
      · obtain ⟨nv, na, hl⟩ := pyDfsList_shape_of nbr f ih (nbr n) (vis ++ [n]) acc
        refine ⟨[n] ++ nv, na, ?_⟩
        simp only [h, if_false]
        simpa [List.append_assoc] using hl

theorem pyDfsList_shape (nbr : String → List String) (f : Nat) :
    ∀ l vis acc, ∃ nv na, pyDfsList nbr f vis acc l = (vis ++ nv, acc ++ na) :=
  pyDfsList_shape_of nbr f (pyDfs_shape nbr f)

theorem pyDfs_vis_mono (nbr : String → List String) (f : Nat) (vis acc : List String)
    (n x : String) (hx : x ∈ vis) : x ∈ (pyDfs nbr f vis acc n).1 := by
  obtain ⟨nv, na, h⟩ := pyDfs_shape nbr f vis acc n
  rw [h]
  exact List.mem_append_left _ hx

theorem pyDfs_acc_mono (nbr : String → List String) (f : Nat) (vis acc : List String)
    (n : String) (x : String) (hx : x ∈ acc) : x ∈ (pyDfs nbr f vis acc n).2 := by
  obtain ⟨nv, na, h⟩ := pyDfs_shape nbr f vis acc n
  rw [h]
  exact List.mem_append_left _ hx

theorem pyDfsList_vis_mono (nbr : String → List String) (f : Nat)
    (vis acc l : List String) (x : String) (hx : x ∈ vis) :
    x ∈ (pyDfsList nbr f vis acc l).1 := by
  obtain ⟨nv, na, h⟩ := pyDfsList_shape nbr f l vis acc
  rw [h]
  exact List.mem_append_left _ hx

theorem pyDfsList_acc_mono (nbr : String → List String) (f : Nat)
    (vis acc l : List String) (x : String) (hx : x ∈ acc) :
    x ∈ (pyDfsList nbr f vis acc l).2 := by
  obtain ⟨nv, na, h⟩ := pyDfsList_shape nbr f l vis acc
  rw [h]
  exact List.mem_append_left _ hx

/-- One-step image of a predicate along the adjacency function. -/
def stepImage (nbr : String → List String) (R : String → Prop) (x : String) : Prop :=
  ∃ a, R a ∧ x ∈ nbr a

theorem pyDfs_sound (nbr : String → List String) (R : String → Prop)
    (hcl : ∀ a, R a → ∀ b, b ∈ nbr a → R b) (f : Nat) :
    (∀ vis acc n, R n →
      (∀ x ∈ (pyDfs nbr f vis acc n).1, x ∈ vis ∨ R x) ∧
      (∀ x ∈ (pyDfs nbr f vis acc n).2, x ∈ acc ∨ stepImage nbr R x)) ∧
    (∀ vis acc l, (∀ d ∈ l, stepImage nbr R d) →
      (∀ x ∈ (pyDfsList nbr f vis acc l).1, x ∈ vis ∨ R x) ∧
      (∀ x ∈ (pyDfsList nbr f vis acc l).2, x ∈ acc ∨ stepImage nbr R x)) := by
  have hlist : ∀ f, (∀ vis acc n, R n →
      (∀ x ∈ (pyDfs nbr f vis acc n).1, x ∈ vis ∨ R x) ∧
      (∀ x ∈ (pyDfs nbr f vis acc n).2, x ∈ acc ∨ stepImage nbr R x)) →
      ∀ l vis acc, (∀ d ∈ l, stepImage nbr R d) →
      (∀ x ∈ (pyDfsList nbr f vis acc l).1, x ∈ vis ∨ R x) ∧
      (∀ x ∈ (pyDfsList nbr f vis acc l).2, x ∈ acc ∨ stepImage nbr R x) := by
    intro f hd l
    induction l with
    | nil =>
        intro vis acc _
        constructor <;> intro x hx <;> rw [pyDfsList_nil] at hx <;> exact Or.inl hx
    | cons d ds ih =>
        intro vis acc hl
        have hRd : R d := by
          obtain ⟨a, ha, hmem⟩ := hl d (List.mem_cons_self d ds)
          exact hcl a ha d hmem
        have h1 := hd vis (acc ++ [d]) d hRd
        have h2 := ih (pyDfs nbr f vis (acc ++ [d]) d).1
          (pyDfs nbr f vis (acc ++ [d]) d).2
          (fun e he => hl e (List.mem_cons_of_mem d he))
        rw [pyDfsList_cons]
        constructor
        · intro x hx
          rcases (h2.1 x hx) with h | h
          · exact h1.1 x h
          · exact Or.inr h
        · intro x hx
          rcases (h2.2 x hx) with h | h
          · rcases (h1.2 x h) with h | h
            · rcases List.mem_append.mp h with h | h
              · exact Or.inl h
              · refine Or.inr ?_
                have : x = d := by simpa using h
                subst this
                exact hl x (List.mem_cons_self x ds)
            · exact Or.inr h
          · exact Or.inr h
  have hdfs : ∀ f, ∀ vis acc n, R n →
      (∀ x ∈ (pyDfs nbr f vis acc n).1, x ∈ vis ∨ R x) ∧
      (∀ x ∈ (pyDfs nbr f vis acc n).2, x ∈ acc ∨ stepImage nbr R x) := by
    intro f
    induction f with
    | zero =>
        intro vis acc n _
        constructor <;> intro x hx <;> rw [pyDfs_zero] at hx <;> exact Or.inl hx
    | succ f ih =>
        intro vis acc n hRn
        rw [pyDfs_succ]
        by_cases h : n ∈ vis
        · simp only [h, if_true]
          exact ⟨fun x hx => Or.inl hx, fun x hx => Or.inl hx⟩
        · simp only [h, if_false]
          have hstep : ∀ d ∈ nbr n, stepImage nbr R d := fun d hd => ⟨n, hRn, hd⟩
          have := hlist f ih (nbr n) (vis ++ [n]) acc hstep
          constructor
          · intro x hx
            rcases this.1 x hx with hmem | hR
            · rcases List.mem_append.mp hmem with hmem | hmem
              · exact Or.inl hmem
              · have : x = n := by simpa using hmem
                subst this
                exact Or.inr hRn
            · exact Or.inr hR
          · exact this.2
  exact ⟨hdfs f, fun vis acc l => hlist f (hdfs f) l vis acc⟩

theorem card_diff_mono (U vis vis' : List String) (h : ∀ x ∈ vis, x ∈ vis') :
    (U.toFinset \ vis'.toFinset).card ≤ (U.toFinset \ vis.toFinset).card := by
  apply Finset.card_le_card
  apply Finset.sdiff_subset_sdiff (le_refl _)
  intro x hx
  rw [List.mem_toFinset] at hx ⊢
  exact h x hx

theorem card_diff_lt (U vis : List String) (n : String) (hnU : n ∈ U) (hnv : n ∉ vis) :
    (U.toFinset \ (vis ++ [n]).toFinset).card < (U.toFinset \ vis.toFinset).card := by
  have h1 : (vis ++ [n]).toFinset = insert n vis.toFinset := by
    ext x
    simp [List.mem_toFinset, or_comm]
  rw [h1]
  have h2 : U.toFinset \ insert n vis.toFinset = (U.toFinset \ vis.toFinset).erase n := by
    ext x
    simp [Finset.mem_sdiff, Finset.mem_erase, List.mem_toFinset]
    tauto
  rw [h2]
  apply Finset.card_erase_lt_of_mem
  rw [Finset.mem_sdiff, List.mem_toFinset, List.mem_toFinset]
  exact ⟨hnU, hnv⟩

theorem pyDfs_complete (nbr : String → List String) (U : List String)
    (hU : ∀ a b, b ∈ nbr a → b ∈ U) :
    ∀ f vis acc n, n ∈ U → (U.toFinset \ vis.toFinset).card < f →
      n ∈ (pyDfs nbr f vis acc n).1 ∧
      (∀ v ∈ (pyDfs nbr f vis acc n).1, v ∉ vis →
        ∀ d ∈ nbr v, d ∈ (pyDfs nbr f vis acc n).1 ∧ d ∈ (pyDfs nbr f vis acc n).2) := by
  have hlist : ∀ f, (∀ vis acc n, n ∈ U → (U.toFinset \ vis.toFinset).card < f →
      n ∈ (pyDfs nbr f vis acc n).1 ∧
      (∀ v ∈ (pyDfs nbr f vis acc n).1, v ∉ vis →
        ∀ d ∈ nbr v, d ∈ (pyDfs nbr f vis acc n).1 ∧ d ∈ (pyDfs nbr f vis acc n).2)) →
      ∀ l vis acc, (∀ d ∈ l, d ∈ U) → (U.toFinset \ vis.toFinset).card < f →
      (∀ d ∈ l, d ∈ (pyDfsList nbr f vis acc l).1 ∧ d ∈ (pyDfsList nbr f vis acc l).2) ∧
      (∀ v ∈ (pyDfsList nbr f vis acc l).1, v ∉ vis →
        ∀ d ∈ nbr v, d ∈ (pyDfsList nbr f vis acc l).1 ∧
          d ∈ (pyDfsList nbr f vis acc l).2) := by
    intro f hd l
    induction l with
    | nil =>
        intro vis acc _ _
        rw [pyDfsList_nil]
        exact ⟨fun d hd => absurd hd (List.not_mem_nil d),
          fun v hv hnv d hd => absurd hv hnv⟩
    | cons d ds ih =>
        intro vis acc hlU hcard
        have hdU : d ∈ U := hlU d (List.mem_cons_self d ds)
        have h1 := hd vis (acc ++ [d]) d hdU hcard
        set r1 := pyDfs nbr f vis (acc ++ [d]) d with hr1
        have hsub1 : ∀ x ∈ vis, x ∈ r1.1 := fun x hx => pyDfs_vis_mono nbr f vis _ d x hx
        have hcard1 : (U.toFinset \ r1.1.toFinset).card < f :=
          lt_of_le_of_lt (card_diff_mono U vis r1.1 hsub1) hcard
        have h2 := ih r1.1 r1.2 (fun e he => hlU e (List.mem_cons_of_mem d he)) hcard1
        rw [pyDfsList_cons, ← hr1]
        have hmono1 : ∀ x ∈ r1.1, x ∈ (pyDfsList nbr f r1.1 r1.2 ds).1 :=
          fun x hx => pyDfsList_vis_mono nbr f r1.1 r1.2 ds x hx
        have hmono2 : ∀ x ∈ r1.2, x ∈ (pyDfsList nbr f r1.1 r1.2 ds).2 :=
          fun x hx => pyDfsList_acc_mono nbr f r1.1 r1.2 ds x hx
        constructor
        · intro e he
          rcases List.mem_cons.mp he with he | he
          · subst he
            refine ⟨hmono1 e h1.1, hmono2 e ?_⟩
            exact pyDfs_acc_mono nbr f vis (acc ++ [e]) e e (by simp)
          · exact (h2.1 e he)
        · intro v hv hnv e he
          by_cases hv1 : v ∈ r1.1
          · have := h1.2 v hv1 hnv e he
            exact ⟨hmono1 e this.1, hmono2 e this.2⟩
          · exact h2.2 v hv hv1 e he
  intro f
  induction f with
  | zero =>
      intro vis acc n _ hcard
      exact absurd hcard (Nat.not_lt_zero _)
  | succ f ih =>
      intro vis acc n hnU hcard
      rw [pyDfs_succ]
      by_cases h : n ∈ vis
      · rw [if_pos h]
        exact ⟨h, fun v hv hnv => absurd hv hnv⟩
      · simp only [h, if_false]
        have hcard2 : (U.toFinset \ (vis ++ [n]).toFinset).card < f := by
          have hlt := card_diff_lt U vis n hnU h
          omega
        have h2 := hlist f ih (nbr n) (vis ++ [n]) acc (fun d hd => hU n d hd) hcard2
        constructor
        · exact pyDfsList_vis_mono nbr f (vis ++ [n]) acc (nbr n) n (by simp)
        · intro v hv hnv e he
          by_cases hvn : v = n
          · subst hvn
            exact h2.1 e he
          · refine h2.2 v hv ?_ e he
            intro hmem
            rcases List.mem_append.mp hmem with hmem | hmem
            · exact hnv hmem
            · exact hvn (by simpa using hmem)

theorem dGet_some_value_mem {α : Type} :
    ∀ {d : PyDict α} {k : String} {v : α}, dGet d k = some v → v ∈ d.map Prod.snd := by
  intro d
  induction d with
  | nil => intro k v h; simp [dGet] at h
  | cons kv rest ih =>
      intro k v h
      rw [dGet] at h
      split at h
      · simp at h
        simp [h]
      · simp [ih h]

theorem revOf_subset (g : PartGraph) (a b : String) (h : b ∈ g.revOf a) :
    b ∈ (g.rev.map Prod.snd).flatten := by
  unfold PartGraph.revOf at h
  cases hd : dGet g.rev a with
  | none => rw [hd] at h; simp at h
  | some l =>
      rw [hd] at h
      simp only [Option.getD_some] at h
      rw [List.mem_flatten]
      exact ⟨l, dGet_some_value_mem hd, h⟩

/-- Diamond of dependents: B and C depend on A, D depends on B and C. -/
def c3diamond : PartGraph :=
  (((PartGraph.empty.add_part { name := "A" }).add_part
    { name := "B", dependencies := ["A"] }).add_part
    { name := "C", dependencies := ["A"] }).add_part
    { name := "D", dependencies := ["B", "C"] }

/-- Two-cycle of dependents: A and B depend on each other. -/
def c3cycle : PartGraph :=
  (PartGraph.empty.add_part { name := "A", dependencies := ["B"] }).add_part
    { name := "B", dependencies := ["A"] }

/-- C3 counterexample: on the diamond graph `get_affected_parts "A"` lists D
twice (the claim says each affected part is listed exactly once), and on the
two-cycle graph it lists "A" itself (the claim says the argument is excluded). -/
theorem C3_counterexample :
    ¬ (c3diamond.get_affected_parts "A").Nodup ∧
      "A" ∈ c3cycle.get_affected_parts "A" := by
  constructor
  · decide
  · decide

/-- C3 (amended): for every graph and every name, `get_affected_parts name`
lists a part iff it is reachable from `name` by following one or more
dependents edges; on diamond-shaped dependent paths a part can be listed more
than once, and `name` itself is listed exactly when it lies on a dependents
cycle. -/
theorem C3_affected_iff_reachable (g : PartGraph) (name m : String) :
    m ∈ g.get_affected_parts name ↔ Relation.TransGen (stepRel g.revOf) name m := by
  unfold PartGraph.get_affected_parts
  have hUprop : ∀ a b, b ∈ g.revOf a → b ∈ name :: (g.rev.map Prod.snd).flatten :=
    fun a b h => List.mem_cons_of_mem _ (revOf_subset g a b h)
  constructor
  · intro hm
    have hclosed : ∀ a, Relation.ReflTransGen (stepRel g.revOf) name a →
        ∀ b, b ∈ g.revOf a → Relation.ReflTransGen (stepRel g.revOf) name b :=
      fun a ha b hb => Relation.ReflTransGen.tail ha hb
    have hsound := (pyDfs_sound g.revOf
      (fun x => Relation.ReflTransGen (stepRel g.revOf) name x) hclosed
      (dfsFuel g.rev name)).1 [] [] name Relation.ReflTransGen.refl
    rcases hsound.2 m hm with h | ⟨a, ha, hmem⟩
    · simp at h
    · exact Relation.TransGen.tail' ha hmem
  · intro htg
    have hcard : (((name :: (g.rev.map Prod.snd).flatten).toFinset) \
        (([] : List String).toFinset)).card < dfsFuel g.rev name := by
      rw [List.toFinset_nil, Finset.sdiff_empty]
      unfold dfsFuel
      exact Nat.lt_succ_of_le (List.toFinset_card_le _)
    have hcomp := pyDfs_complete g.revOf (name :: (g.rev.map Prod.snd).flatten)
      hUprop (dfsFuel g.rev name) [] [] name (List.mem_cons_self _ _) hcard
    have hall : ∀ x, Relation.TransGen (stepRel g.revOf) name x →
        x ∈ (pyDfs g.revOf (dfsFuel g.rev name) [] [] name).1 ∧
        x ∈ (pyDfs g.revOf (dfsFuel g.rev name) [] [] name).2 := by
      intro x hx
      induction hx with
      | single h => exact hcomp.2 name hcomp.1 (List.not_mem_nil name) _ h
      | tail hab hbc ih => exact hcomp.2 _ ih.1 (List.not_mem_nil _) _ hbc
    exact (hall m htg).2

/-! ### Dictionary lemmas -/

theorem dGet_eq_none (α : Type) (d : PyDict α) (k : String) :
    dGet d k = none ↔ k ∉ dKeys d := by
  induction d with
  | nil => simp [dGet, dKeys]
  | cons kv rest ih =>
      rw [dGet]
      by_cases h : kv.1 = k
      · constructor
        · intro hc; rw [if_pos h] at hc; exact absurd hc (by simp)
        · intro hc; exact absurd (by simp [dKeys, h]) hc
      · rw [if_neg h, ih]
        simp only [dKeys, List.map_cons, List.mem_cons]
        constructor
        · intro hn hc
          rcases hc with hc | hc
          · exact h hc.symm
          · exact hn hc
        · intro hn hc
          exact hn (Or.inr hc)

theorem dMem_iff (α : Type) (d : PyDict α) (k : String) :
    dMem d k = true ↔ k ∈ dKeys d := by
  unfold dMem
  cases hd : dGet d k with
  | none => simpa using (dGet_eq_none α d k).mp hd
  | some v =>
      simp only [Option.isSome_some, true_iff]
      by_contra hmem
      rw [← dGet_eq_none α d k] at hmem
      rw [hd] at hmem
      exact absurd hmem (by simp)

theorem dGet_dSet_self (α : Type) (d : PyDict α) (k : String) (v : α) :
    dGet (dSet d k v) k = some v := by
  induction d with
  | nil => simp [dSet, dGet]
  | cons kv rest ih =>
      rw [dSet]
      by_cases h : kv.1 = k
      · rw [if_pos h, dGet, if_pos h]
      · rw [if_neg h, dGet, if_neg h]
        exact ih

theorem dGet_dSet_ne (α : Type) (d : PyDict α) (k q : String) (v : α) (h : q ≠ k) :
    dGet (dSet d k v) q = dGet d q := by
  induction d with
  | nil =>
      show (if k = q then some v else dGet [] q) = dGet [] q
      rw [if_neg (show ¬ k = q from fun hc => h hc.symm)]
  | cons kv rest ih =>
      rw [dSet]
      by_cases hk : kv.1 = k
      · rw [if_pos hk, dGet, dGet]
        have : kv.1 ≠ q := by rw [hk]; exact fun hc => h hc.symm
        rw [if_neg this, if_neg this]
      · rw [if_neg hk, dGet, dGet]
        by_cases hq : kv.1 = q
        · rw [if_pos hq, if_pos hq]
        · rw [if_neg hq, if_neg hq]
          exact ih

theorem dKeys_dSet_of_mem (α : Type) (d : PyDict α) (k : String) (v : α)
    (h : k ∈ dKeys d) : dKeys (dSet d k v) = dKeys d := by
  induction d with
  | nil => simp [dKeys] at h
  | cons kv rest ih =>
      rw [dSet]
      by_cases hk : kv.1 = k
      · rw [if_pos hk]
        simp [dKeys]
      · rw [if_neg hk]
        have h2 : k ∈ dKeys rest := by
          simp [dKeys] at h ⊢
          rcases h with h | h
          · exact absurd h.symm hk
          · exact h
        have h3 := ih h2
        unfold dKeys at h3 ⊢
        simp [h3]

theorem dKeys_filter_sublist (α : Type) (d : PyDict α) (p : String × α → Bool) :
    ((d.filter p).map Prod.fst).Sublist (d.map Prod.fst) :=
  (List.filter_sublist d).map Prod.fst

/-! ### Kahn topological sort: verification -/

theorem dGet_some_pair_mem {α : Type} :
    ∀ {d : PyDict α} {k : String} {v : α}, dGet d k = some v → (k, v) ∈ d := by
  intro d
  induction d with
  | nil => intro k v h; simp [dGet] at h
  | cons kv rest ih =>
      intro k v h
      rw [dGet] at h
      split at h
      · rename_i heq
        simp only [Option.some.injEq] at h
        subst h
        subst heq
        exact List.mem_cons_self _ _
      · exact List.mem_cons_of_mem _ (ih h)

/-- q is a dependency edge target of p that exists in the graph: the only
edges that constrain the topological order. -/
def depEdge (g : PartGraph) (q p : String) : Prop :=
  q ∈ g.adjOf p ∧ q ∈ dKeys g.parts

/-- The existing dependencies of p, as a finite set. -/
def depFinset (g : PartGraph) (p : String) : Finset String :=
  ((g.adjOf p).filter (fun q => dMem g.parts q)).toFinset

theorem mem_depFinset (g : PartGraph) (p q : String) :
    q ∈ depFinset g p ↔ depEdge g q p := by
  unfold depFinset depEdge
  rw [List.mem_toFinset, List.mem_filter, dMem_iff]

/-- Structural well-formedness of a graph state: part keys are distinct,
the stored adjacency sets are duplicate-free, and the dependency and
dependents maps record the same edge set in the two directions. -/
structure GraphWF (g : PartGraph) : Prop where
  partsNodup : (dKeys g.parts).Nodup
  adjEntriesNodup : ∀ kv ∈ g.adj, (kv.2 : List String).Nodup
  revEntriesNodup : ∀ kv ∈ g.rev, (kv.2 : List String).Nodup
  pairA : ∀ kv ∈ g.adj, ∀ b ∈ kv.2, kv.1 ∈ g.revOf b
  pairR : ∀ kv ∈ g.rev, ∀ a ∈ kv.2, kv.1 ∈ g.adjOf a

theorem GraphWF.adjOf_nodup {g : PartGraph} (h : GraphWF g) (a : String) :
    (g.adjOf a).Nodup := by
  unfold PartGraph.adjOf
  cases hd : dGet g.adj a with
  | none => simp
  | some l => simpa using h.adjEntriesNodup (a, l) (dGet_some_pair_mem hd)

theorem GraphWF.revOf_nodup {g : PartGraph} (h : GraphWF g) (a : String) :
    (g.revOf a).Nodup := by
  unfold PartGraph.revOf
  cases hd : dGet g.rev a with
  | none => simp
  | some l => simpa using h.revEntriesNodup (a, l) (dGet_some_pair_mem hd)

theorem GraphWF.pair {g : PartGraph} (h : GraphWF g) (a b : String) :
    b ∈ g.adjOf a ↔ a ∈ g.revOf b := by
  constructor
  · intro hm
    unfold PartGraph.adjOf at hm
    cases hd : dGet g.adj a with
    | none => rw [hd] at hm; simp at hm
    | some l =>
        rw [hd] at hm
        simp only [Option.getD_some] at hm
        exact h.pairA (a, l) (dGet_some_pair_mem hd) b hm
  · intro hm
    unfold PartGraph.revOf at hm
    cases hd : dGet g.rev b with
    | none => rw [hd] at hm; simp at hm
    | some l =>
        rw [hd] at hm
        simp only [Option.getD_some] at hm
        exact h.pairR (b, l) (dGet_some_pair_mem hd) a hm

/-- A list is a valid dependency-respecting sequence over the already-seen
set s: each element's existing dependencies all lie in s or earlier in the
list. -/
def GoodSeq (g : PartGraph) : List String → Finset String → Prop
  | [], _ => True
  | p :: l, s => depFinset g p ⊆ s ∧ GoodSeq g l (insert p s)

theorem GoodSeq.snoc (g : PartGraph) :
    ∀ (l : List String) (s : Finset String) (node : String),
      GoodSeq g l s → depFinset g node ⊆ s ∪ l.toFinset →
      GoodSeq g (l ++ [node]) s := by
  intro l
  induction l with
  | nil =>
      intro s node _ hsub
      refine ⟨?_, trivial⟩
      simpa using hsub
  | cons p l ih =>
      intro s node hgood hsub
      refine ⟨hgood.1, ih (insert p s) node hgood.2 ?_⟩
      intro x hx
      have := hsub hx
      rw [Finset.mem_union] at this ⊢
      rcases this with h | h
      · exact Or.inl (Finset.mem_insert_of_mem h)
      · rw [List.mem_toFinset, List.mem_cons] at h
        rcases h with h | h
        · exact Or.inl (by rw [h]; exact Finset.mem_insert_self p s)
        · exact Or.inr (List.mem_toFinset.mpr h)

theorem GoodSeq.ordered (g : PartGraph) :
    ∀ (l1 : List String) (s : Finset String) (p : String) (l2 : List String),
      GoodSeq g (l1 ++ p :: l2) s → depFinset g p ⊆ s ∪ l1.toFinset := by
  intro l1
  induction l1 with
  | nil =>
      intro s p l2 hgood
      simpa using hgood.1
  | cons q l1 ih =>
      intro s p l2 hgood
      have := ih (insert q s) p l2 hgood.2
      intro x hx
      have hx2 := this hx
      rw [Finset.mem_union] at hx2 ⊢
      rcases hx2 with h | h
      · rcases Finset.mem_insert.mp h with h | h
        · exact Or.inr (by simp [h])
        · exact Or.inl h
      · exact Or.inr (by simp [List.mem_toFinset.mp h])

theorem GoodSeq.acc (g : PartGraph) :
    ∀ (l : List String) (s : Finset String),
      (∀ x ∈ s, Acc (depEdge g) x) → GoodSeq g l s →
      ∀ p ∈ l, Acc (depEdge g) p := by
  intro l
  induction l with
  | nil => intro s _ _ p hp; exact absurd hp (List.not_mem_nil p)
  | cons q l ih =>
      intro s hs hgood p hp
      have hq : Acc (depEdge g) q := by
        constructor
        intro y hy
        exact hs y (hgood.1 ((mem_depFinset g q y).mpr hy))
      rcases List.mem_cons.mp hp with h | h
      · rw [h]; exact hq
      · refine ih (insert q s) ?_ hgood.2 p h
        intro x hx
        rcases Finset.mem_insert.mp hx with h | h
        · rw [h]; exact hq
        · exact hs x h

theorem dGet_some_mem_dKeys {α : Type} {d : PyDict α} {k : String} {v : α}
    (h : dGet d k = some v) : k ∈ dKeys d := by
  rw [← dMem_iff]
  unfold dMem
  rw [h]
  rfl

theorem kahnFoldF_spec :
    ∀ (L : List String), L.Nodup → ∀ (D : PyDict Int) (Q : List String),
      dKeys (L.foldl kahnFoldF (D, Q)).1 = dKeys D ∧
      (∀ p, dGet (L.foldl kahnFoldF (D, Q)).1 p =
          if p ∈ L then (dGet D p).map (fun v => v - 1) else dGet D p) ∧
      (L.foldl kahnFoldF (D, Q)).2 =
        Q ++ L.filter (fun p => decide (dGet D p = some 1)) := by
  intro L
  induction L with
  | nil =>
      intro _ D Q
      refine ⟨rfl, fun p => by simp, by simp⟩
  | cons d L ih =>
      intro hnd D Q
      have hdL : d ∉ L := (List.nodup_cons.mp hnd).1
      have hL : L.Nodup := (List.nodup_cons.mp hnd).2
      rw [List.foldl_cons]
      cases hD : dGet D d with
      | none =>
          have hstep : kahnFoldF (D, Q) d = (D, Q) := by
            unfold kahnFoldF
            rw [hD]
          rw [hstep]
          obtain ⟨hk, hv, hq⟩ := ih hL D Q
          refine ⟨hk, ?_, ?_⟩
          · intro p
            rw [hv p]
            by_cases hp : p = d
            · subst hp
              rw [if_neg hdL, if_pos (List.mem_cons_self p L), hD]
              rfl
            · by_cases hpl : p ∈ L
              · rw [if_pos hpl, if_pos (List.mem_cons_of_mem d hpl)]
              · rw [if_neg hpl, if_neg (by simp [hp, hpl])]
          · rw [hq]
            have : decide (dGet D d = some 1) = false := by simp [hD]
            rw [List.filter_cons, this]
            simp
      | some v =>
          have hstep : kahnFoldF (D, Q) d =
              (dSet D d (v - 1), if v - 1 = 0 then Q ++ [d] else Q) := by
            unfold kahnFoldF
            rw [hD]
            by_cases h0 : v - 1 = 0
            · simp only [h0, if_pos]
            · simp only [h0, if_neg, if_false]
          rw [hstep]
          have hdk : d ∈ dKeys D := dGet_some_mem_dKeys hD
          obtain ⟨hk, hv, hq⟩ := ih hL (dSet D d (v - 1)) (if v - 1 = 0 then Q ++ [d] else Q)
          refine ⟨by rw [hk]; exact dKeys_dSet_of_mem Int D d (v - 1) hdk, ?_, ?_⟩
          · intro p
            rw [hv p]
            by_cases hp : p = d
            · subst hp
              rw [if_neg hdL, if_pos (List.mem_cons_self p L),
                dGet_dSet_self Int D p (v - 1), hD]
              rfl
            · by_cases hpl : p ∈ L
              · rw [if_pos hpl, if_pos (List.mem_cons_of_mem d hpl),
                  dGet_dSet_ne Int D d p (v - 1) hp]
              · rw [if_neg hpl, if_neg (by simp [hp, hpl]),
                  dGet_dSet_ne Int D d p (v - 1) hp]
          · rw [hq]
            have hfc : L.filter (fun p => decide (dGet (dSet D d (v - 1)) p = some 1)) =
                L.filter (fun p => decide (dGet D p = some 1)) := by
              apply List.filter_congr
              intro p hp
              have hpd : p ≠ d := fun hc => hdL (hc ▸ hp)
              rw [dGet_dSet_ne Int D d p (v - 1) hpd]
            rw [hfc, List.filter_cons]
            by_cases h1 : v = 1
            · subst h1
              have hz : (1 : Int) - 1 = 0 := by norm_num
              rw [if_pos hz]
              have : decide (dGet D d = some 1) = true := by simp [hD]
              rw [this]
              simp
            · have hz : ¬ (v - 1 = 0) := fun hc => h1 (by omega)
              rw [if_neg hz]
              have : decide (dGet D d = some 1) = false := by
                simp [hD]
                omega
              rw [this]
              simp

/-- Loop invariant of the Kahn loop: the in-degree dict counts, for every
part, its existing dependencies not yet emitted; emitted and queued parts
are distinct registered parts; a part has been emitted or queued exactly
when all its existing dependencies are emitted; and the emitted list is
dependency-ordered. -/
structure KahnInv (g : PartGraph) (ind : PyDict Int) (queue result : List String) :
    Prop where
  keys : dKeys ind = dKeys g.parts
  deg : ∀ p ∈ dKeys g.parts,
    dGet ind p = some (((depFinset g p \ result.toFinset).card : Int))
  nodup : (result ++ queue).Nodup
  inNames : ∀ x ∈ result ++ queue, x ∈ dKeys g.parts
  memIff : ∀ p ∈ dKeys g.parts,
    (p ∈ result ∨ p ∈ queue) ↔ depFinset g p ⊆ result.toFinset
  good : GoodSeq g result ∅

theorem kahnStep_inv (g : PartGraph) (hwf : GraphWF g) (ind : PyDict Int)
    (node : String) (rest result : List String)
    (hinv : KahnInv g ind (node :: rest) result) :
    KahnInv g (kahnStep g node ind rest).1 (kahnStep g node ind rest).2
      (result ++ [node]) := by
  obtain ⟨hk, hv, hq⟩ := kahnFoldF_spec (g.revOf node) (hwf.revOf_nodup node) ind rest
  have hnodeNames : node ∈ dKeys g.parts := hinv.inNames node (by simp)
  have hnodeNotR : node ∉ result := by
    intro hc
    have hnd := hinv.nodup
    rw [List.nodup_append] at hnd
    exact hnd.2.2 hc (List.mem_cons_self node rest)
  have hAnode : depFinset g node ⊆ result.toFinset :=
    (hinv.memIff node hnodeNames).mp (Or.inr (List.mem_cons_self node rest))
  have hup : ∀ p, p ∈ g.revOf node ↔ node ∈ depFinset g p := by
    intro p
    rw [mem_depFinset]
    unfold depEdge
    constructor
    · intro h
      exact ⟨(hwf.pair p node).mpr h, hnodeNames⟩
    · intro h
      exact (hwf.pair p node).mp h.1
  have hR' : (result ++ [node]).toFinset = insert node result.toFinset := by
    ext x
    simp [or_comm]
  have hnodeNotRf : node ∉ result.toFinset := fun hc => hnodeNotR (List.mem_toFinset.mp hc)
  set newq := (g.revOf node).filter (fun p => decide (dGet ind p = some 1)) with hnewqdef
  have hnewq : ∀ x, x ∈ newq ↔
      x ∈ g.revOf node ∧ x ∈ dKeys g.parts ∧ (depFinset g x \ result.toFinset).card = 1 := by
    intro x
    rw [hnewqdef, List.mem_filter]
    constructor
    · intro ⟨hxL, hxc⟩
      rw [decide_eq_true_eq] at hxc
      by_cases hxn : x ∈ dKeys g.parts
      · refine ⟨hxL, hxn, ?_⟩
        rw [hinv.deg x hxn] at hxc
        simp only [Option.some.injEq] at hxc
        exact_mod_cast hxc
      · rw [(dGet_eq_none Int ind x).mpr (by rw [hinv.keys]; exact hxn)] at hxc
        exact absurd hxc (by simp)
    · intro ⟨hxL, hxn, hxc⟩
      refine ⟨hxL, ?_⟩
      rw [decide_eq_true_eq, hinv.deg x hxn, hxc]
      rfl
  have hnewqFresh : ∀ x ∈ newq, x ∉ result ∧ x ≠ node ∧ x ∉ rest := by
    intro x hx
    obtain ⟨hxL, hxn, hxc⟩ := (hnewq x).mp hx
    have hnot : ¬ (x ∈ result ∨ x ∈ node :: rest) := by
      intro hc
      have hsub := (hinv.memIff x hxn).mp hc
      have : (depFinset g x \ result.toFinset) = ∅ := Finset.sdiff_eq_empty_iff_subset.mpr hsub
      rw [this] at hxc
      simp at hxc
    push_neg at hnot
    exact ⟨hnot.1, fun hc => hnot.2 (hc ▸ List.mem_cons_self node rest),
      fun hc => hnot.2 (List.mem_cons_of_mem node hc)⟩
  unfold kahnStep
  constructor
  · rw [hk, hinv.keys]
  · intro p hp
    rw [hv p]
    by_cases hpL : p ∈ g.revOf node
    · rw [if_pos hpL, hinv.deg p hp]
      have hnA : node ∈ depFinset g p := (hup p).mp hpL
      have hnAR : node ∈ depFinset g p \ result.toFinset :=
        Finset.mem_sdiff.mpr ⟨hnA, hnodeNotRf⟩
      have hcard1 : 1 ≤ (depFinset g p \ result.toFinset).card :=
        Finset.card_pos.mpr ⟨node, hnAR⟩
      have hsd : depFinset g p \ (result ++ [node]).toFinset =
          (depFinset g p \ result.toFinset).erase node := by
        rw [hR']
        ext x
        simp [Finset.mem_sdiff, Finset.mem_erase]
        tauto
      rw [hsd, Finset.card_erase_of_mem hnAR, Option.map_some']
      congr 1
      omega
    · rw [if_neg hpL, hinv.deg p hp]
      have hnA : node ∉ depFinset g p := fun hc => hpL ((hup p).mpr hc)
      have hsd : depFinset g p \ (result ++ [node]).toFinset =
          depFinset g p \ result.toFinset := by
        rw [hR']
        ext x
        simp only [Finset.mem_sdiff, Finset.mem_insert]
        constructor
        · intro ⟨h1, h2⟩
          exact ⟨h1, fun hc => h2 (Or.inr hc)⟩
        · intro ⟨h1, h2⟩
          refine ⟨h1, fun hc => ?_⟩
          rcases hc with hc | hc
          · exact hnA (hc ▸ h1)
          · exact h2 hc
      rw [hsd]
  · rw [hq]
    have hbase : ((result ++ [node]) ++ rest).Nodup := by
      have := hinv.nodup
      simpa [List.append_assoc] using this
    have hnewqNodup : newq.Nodup := List.Nodup.filter _ (hwf.revOf_nodup node)
    rw [show (result ++ [node]) ++ (rest ++ newq) = ((result ++ [node]) ++ rest) ++ newq
      by simp [List.append_assoc]]
    rw [List.nodup_append]
    refine ⟨hbase, hnewqNodup, ?_⟩
    intro a ha hc
    obtain ⟨h1, h2, h3⟩ := hnewqFresh a hc
    rcases List.mem_append.mp ha with ha | ha
    · rcases List.mem_append.mp ha with ha | ha
      · exact h1 ha
      · exact h2 (by simpa using ha)
    · exact h3 ha
  · intro x hx
    rcases List.mem_append.mp hx with hx | hx
    · rcases List.mem_append.mp hx with hx | hx
      · exact hinv.inNames x (List.mem_append_left _ hx)
      · have : x = node := by simpa using hx
        rw [this]
        exact hnodeNames
    · rw [hq] at hx
      rcases List.mem_append.mp hx with hx | hx
      · exact hinv.inNames x (List.mem_append_right _ (List.mem_cons_of_mem node hx))
      · exact ((hnewq x).mp hx).2.1
  · intro p hp
    rw [hq, hR']
    by_cases hold : p ∈ result ∨ p ∈ node :: rest
    · have hsub : depFinset g p ⊆ result.toFinset := (hinv.memIff p hp).mp hold
      constructor
      · intro _
        exact hsub.trans (Finset.subset_insert node result.toFinset)
      · intro _
        rcases hold with h | h
        · exact Or.inl (List.mem_append_left _ h)
        · rcases List.mem_cons.mp h with h | h
          · exact Or.inl (List.mem_append_right _ (by simp [h]))
          · exact Or.inr (List.mem_append_left _ h)
    · push_neg at hold
      have hnotsub : ¬ depFinset g p ⊆ result.toFinset :=
        fun hc => (by exact absurd ((hinv.memIff p hp).mpr hc) (by push_neg; exact hold))
      constructor
      · intro hmem
        have hpnew : p ∈ newq := by
          rcases hmem with h | h
          · rcases List.mem_append.mp h with h | h
            · exact absurd h hold.1
            · exact absurd (by simpa using h : p = node)
                (fun hc => hold.2 (hc ▸ List.mem_cons_self node rest))
          · rcases List.mem_append.mp h with h | h
            · exact absurd (List.mem_cons_of_mem node h) hold.2
            · exact h
        obtain ⟨hpL, _, hpc⟩ := (hnewq p).mp hpnew
        have hnA : node ∈ depFinset g p := (hup p).mp hpL
        have hnAR : node ∈ depFinset g p \ result.toFinset :=
          Finset.mem_sdiff.mpr ⟨hnA, hnodeNotRf⟩
        have hsingle : depFinset g p \ result.toFinset = {node} := by
          obtain ⟨a, hae⟩ := Finset.card_eq_one.mp hpc
          rw [hae] at hnAR ⊢
          rw [Finset.mem_singleton] at hnAR
          rw [hnAR]
        intro x hxA
        by_cases hxR : x ∈ result.toFinset
        · exact Finset.mem_insert_of_mem hxR
        · have : x ∈ depFinset g p \ result.toFinset := Finset.mem_sdiff.mpr ⟨hxA, hxR⟩
          rw [hsingle, Finset.mem_singleton] at this
          rw [this]
          exact Finset.mem_insert_self node result.toFinset
      · intro hsub'
        obtain ⟨q, hqA, hqR⟩ := Finset.not_subset.mp hnotsub
        have hqnode : q = node := by
          have := hsub' hqA
          rcases Finset.mem_insert.mp this with h | h
          · exact h
          · exact absurd h hqR
        have hnA : node ∈ depFinset g p := hqnode ▸ hqA
        have hpL : p ∈ g.revOf node := (hup p).mpr hnA
        have hsingle : depFinset g p \ result.toFinset = {node} := by
          apply Finset.Subset.antisymm
          · intro x hx
            obtain ⟨hx1, hx2⟩ := Finset.mem_sdiff.mp hx
            rcases Finset.mem_insert.mp (hsub' hx1) with h | h
            · exact Finset.mem_singleton.mpr h
            · exact absurd h hx2
          · intro x hx
            rw [Finset.mem_singleton] at hx
            rw [hx]
            exact Finset.mem_sdiff.mpr ⟨hnA, hnodeNotRf⟩
        have hpnew : p ∈ newq :=
          (hnewq p).mpr ⟨hpL, hp, by rw [hsingle]; simp⟩
        exact Or.inr (List.mem_append_right _ hpnew)
  · exact GoodSeq.snoc g result ∅ node hinv.good
      (by intro x hx; exact Finset.mem_union_right _ (hAnode hx))

theorem dMem_congr {α β : Type} {d : PyDict α} {d' : PyDict β}
    (h : dKeys d = dKeys d') (x : String) : dMem d x = dMem d' x := by
  by_cases hm : x ∈ dKeys d'
  · have h1 : dMem d x = true := (dMem_iff α d x).mpr (h ▸ hm)
    have h2 : dMem d' x = true := (dMem_iff β d' x).mpr hm
    rw [h1, h2]
  · have h1 : ¬ dMem d x = true := fun hc => hm (h ▸ (dMem_iff α d x).mp hc)
    have h2 : ¬ dMem d' x = true := fun hc => hm ((dMem_iff β d' x).mp hc)
    rw [Bool.not_eq_true] at h1 h2
    rw [h1, h2]

theorem dKeys_map_const {α β : Type} (d : PyDict α) (c : β) :
    dKeys (d.map (fun kv => (kv.1, c))) = dKeys d := by
  unfold dKeys
  rw [List.map_map]
  rfl

theorem dGet_map_const {α β : Type} (d : PyDict α) (c : β) :
    ∀ p ∈ dKeys d, dGet (d.map (fun kv => (kv.1, c))) p = some c := by
  induction d with
  | nil => intro p hp; simp [dKeys] at hp
  | cons kv rest ih =>
      intro p hp
      rw [List.map_cons, dGet]
      by_cases h : kv.1 = p
      · rw [if_pos h]
      · rw [if_neg h]
        apply ih
        unfold dKeys at hp ⊢
        rcases List.mem_cons.mp hp with hc | hc
        · exact absurd hc.symm h
        · exact hc

theorem mem_dict_iff_dGet {α : Type} {d : PyDict α} (hnd : (dKeys d).Nodup)
    (k : String) (v : α) : (k, v) ∈ d ↔ dGet d k = some v := by
  constructor
  · intro hm
    induction d with
    | nil => exact absurd hm (List.not_mem_nil _)
    | cons kv rest ih =>
        rw [dGet]
        rcases List.mem_cons.mp hm with h | h
        · rw [← h]
          simp
        · have hk : k ∈ dKeys rest := by
            unfold dKeys
            exact List.mem_map.mpr ⟨(k, v), h, rfl⟩
          have hnd2 : kv.1 ∉ dKeys rest ∧ (dKeys rest).Nodup :=
            List.nodup_cons.mp hnd
          have hne : kv.1 ≠ k := fun hc => hnd2.1 (hc ▸ hk)
          rw [if_neg hne]
          exact ih hnd2.2 h
  · exact dGet_some_pair_mem

theorem bumpF_spec (k : String) :
    ∀ (A : List String) (ind : PyDict Int) (c : Int), dGet ind k = some c →
      dKeys (A.foldl (bumpF k) ind) = dKeys ind ∧
      dGet (A.foldl (bumpF k) ind) k =
        some (c + ((A.filter (fun d => dMem ind d)).length : Int)) ∧
      (∀ q, q ≠ k → dGet (A.foldl (bumpF k) ind) q = dGet ind q) := by
  intro A
  induction A with
  | nil =>
      intro ind c h
      exact ⟨rfl, by simp [h], fun q _ => rfl⟩
  | cons d A ih =>
      intro ind c h
      rw [List.foldl_cons]
      cases hm : dMem ind d with
      | false =>
          have hstep : bumpF k ind d = ind := by
            unfold bumpF
            rw [hm]
            rfl
          rw [hstep]
          obtain ⟨h1, h2, h3⟩ := ih ind c h
          refine ⟨h1, ?_, h3⟩
          rw [h2, List.filter_cons, hm]
          simp
      | true =>
          have hstep : bumpF k ind d = dSet ind k (c + 1) := by
            unfold bumpF
            rw [hm, h]
            simp
          rw [hstep]
          have hkk : k ∈ dKeys ind := dGet_some_mem_dKeys h
          have hkeys : dKeys (dSet ind k (c + 1)) = dKeys ind :=
            dKeys_dSet_of_mem Int ind k (c + 1) hkk
          obtain ⟨h1, h2, h3⟩ := ih (dSet ind k (c + 1)) (c + 1)
            (dGet_dSet_self Int ind k (c + 1))
          refine ⟨by rw [h1, hkeys], ?_, ?_⟩
          · rw [h2]
            have hfc : A.filter (fun e => dMem (dSet ind k (c + 1)) e) =
                A.filter (fun e => dMem ind e) := by
              apply List.filter_congr
              intro e _
              exact dMem_congr hkeys e
            rw [hfc, List.filter_cons, hm]
            simp only [Option.some.injEq, if_true, List.length_cons]
            push_cast
            ring
          · intro q hq
            rw [h3 q hq, dGet_dSet_ne Int ind k q (c + 1) hq]

theorem initFold_spec (g : PartGraph) :
    ∀ (P : List (String × Part)) (ind : PyDict Int),
      dKeys ind = dKeys g.parts → (P.map Prod.fst).Nodup →
      (∀ p ∈ P.map Prod.fst, dGet ind p = some 0) →
      dKeys (P.foldl (fun (ind : PyDict Int) kv =>
          (g.adjOf kv.1).foldl (bumpF kv.1) ind) ind) = dKeys g.parts ∧
      (∀ p ∈ P.map Prod.fst,
        dGet (P.foldl (fun (ind : PyDict Int) kv =>
          (g.adjOf kv.1).foldl (bumpF kv.1) ind) ind) p =
          some ((((g.adjOf p).filter (fun d => dMem g.parts d)).length : Int))) ∧
      (∀ q, q ∉ P.map Prod.fst →
        dGet (P.foldl (fun (ind : PyDict Int) kv =>
          (g.adjOf kv.1).foldl (bumpF kv.1) ind) ind) q = dGet ind q) := by
  intro P
  induction P with
  | nil =>
      intro ind hkeys _ _
      exact ⟨hkeys, fun p hp => absurd hp (List.not_mem_nil p), fun q _ => rfl⟩
  | cons kv P ih =>
      intro ind hkeys hnd h0
      have hk0 : dGet ind kv.1 = some 0 := h0 kv.1 (by simp)
      obtain ⟨b1, b2, b3⟩ := bumpF_spec kv.1 (g.adjOf kv.1) ind 0 hk0
      set ind1 := (g.adjOf kv.1).foldl (bumpF kv.1) ind with hind1
      have hnd1 : kv.1 ∉ P.map Prod.fst := (List.nodup_cons.mp hnd).1
      have hndP : (P.map Prod.fst).Nodup := (List.nodup_cons.mp hnd).2
      have hkeys1 : dKeys ind1 = dKeys g.parts := by rw [b1, hkeys]
      have h01 : ∀ p ∈ P.map Prod.fst, dGet ind1 p = some 0 := by
        intro p hp
        have hne : p ≠ kv.1 := fun hc => hnd1 (hc ▸ hp)
        rw [b3 p hne]
        exact h0 p (List.mem_cons_of_mem _ hp)
      obtain ⟨c1, c2, c3⟩ := ih ind1 hkeys1 hndP h01
      rw [List.foldl_cons]
      refine ⟨c1, ?_, ?_⟩
      · intro p hp
        rcases List.mem_cons.mp hp with hp | hp
        · subst hp
          rw [c3 kv.1 hnd1, b2]
          have hfc : (g.adjOf kv.1).filter (fun d => dMem ind d) =
              (g.adjOf kv.1).filter (fun d => dMem g.parts d) := by
            apply List.filter_congr
            intro e _
            exact dMem_congr (by rw [hkeys]) e
          rw [hfc]
          simp
        · exact c2 p hp
      · intro q hq
        have hq1 : q ∉ P.map Prod.fst := fun hc => hq (List.mem_cons_of_mem _ hc)
        have hqk : q ≠ kv.1 := fun hc => hq (by simp [hc])
        rw [c3 q hq1, b3 q hqk]

theorem initIndeg_spec (g : PartGraph) (hwf : GraphWF g) :
    dKeys (initIndeg g) = dKeys g.parts ∧
    ∀ p ∈ dKeys g.parts, dGet (initIndeg g) p = some ((depFinset g p).card : Int) := by
  have hbase1 : dKeys (g.parts.map (fun kv => (kv.1, (0 : Int)))) = dKeys g.parts :=
    dKeys_map_const g.parts 0
  have hbase2 : ∀ p ∈ dKeys g.parts,
      dGet (g.parts.map (fun kv => (kv.1, (0 : Int)))) p = some 0 :=
    dGet_map_const g.parts 0
  have hnd : (g.parts.map Prod.fst).Nodup := hwf.partsNodup
  obtain ⟨c1, c2, _⟩ := initFold_spec g g.parts
    (g.parts.map (fun kv => (kv.1, (0 : Int)))) hbase1 hnd
    (fun p hp => hbase2 p hp)
  refine ⟨c1, ?_⟩
  intro p hp
  rw [initIndeg]
  rw [c2 p hp]
  congr 1
  have hfnd : ((g.adjOf p).filter (fun d => dMem g.parts d)).Nodup :=
    List.Nodup.filter _ (hwf.adjOf_nodup p)
  unfold depFinset
  rw [List.toFinset_card_of_nodup hfnd]

theorem kahnLoop_spec (g : PartGraph) (hwf : GraphWF g) :
    ∀ (fuel : Nat) (ind : PyDict Int) (queue result : List String),
      KahnInv g ind queue result →
      (dKeys g.parts).length < result.length + fuel →
      ∃ ind2, KahnInv g ind2 [] (kahnLoop g fuel ind queue result) := by
  intro fuel
  induction fuel with
  | zero =>
      intro ind queue result hinv hlen
      exfalso
      have h1 : result.Nodup := (List.nodup_append.mp hinv.nodup).1
      have h2 : result.toFinset ⊆ (dKeys g.parts).toFinset := by
        intro x hx
        exact List.mem_toFinset.mpr
          (hinv.inNames x (List.mem_append_left _ (List.mem_toFinset.mp hx)))
      have h3 : result.length ≤ (dKeys g.parts).length := by
        calc result.length = result.toFinset.card := (List.toFinset_card_of_nodup h1).symm
          _ ≤ (dKeys g.parts).toFinset.card := Finset.card_le_card h2
          _ = (dKeys g.parts).length := List.toFinset_card_of_nodup hwf.partsNodup
      omega
  | succ f ih =>
      intro ind queue result hinv hlen
      cases queue with
      | nil => exact ⟨ind, hinv⟩
      | cons node rest =>
          have hstep := kahnStep_inv g hwf ind node rest result hinv
          have hlen2 : (dKeys g.parts).length < (result ++ [node]).length + f := by
            rw [List.length_append]
            simp
            omega
          exact ih (kahnStep g node ind rest).1 (kahnStep g node ind rest).2
            (result ++ [node]) hstep hlen2

theorem queue0_mem (g : PartGraph) (hwf : GraphWF g) (x : String) :
    x ∈ (((initIndeg g).filter (fun kv => kv.2 = 0)).map Prod.fst) ↔
      x ∈ dKeys g.parts ∧ (depFinset g x).card = 0 := by
  obtain ⟨hk, hv⟩ := initIndeg_spec g hwf
  have hknd : (dKeys (initIndeg g)).Nodup := by rw [hk]; exact hwf.partsNodup
  constructor
  · intro hm
    obtain ⟨kv, hkv, hfst⟩ := List.mem_map.mp hm
    obtain ⟨hkvd, hkvp⟩ := List.mem_filter.mp hkv
    have hz : kv.2 = 0 := by simpa using hkvp
    have hget : dGet (initIndeg g) kv.1 = some kv.2 :=
      (mem_dict_iff_dGet hknd kv.1 kv.2).mp (by
        rcases kv with ⟨a, b⟩
        exact hkvd)
    have hxk : x ∈ dKeys g.parts := by
      rw [← hk]
      rw [← hfst]
      exact dGet_some_mem_dKeys hget
    refine ⟨hxk, ?_⟩
    have := hv x hxk
    rw [← hfst] at this ⊢
    rw [hget] at this
    simp only [Option.some.injEq] at this
    have hz2 : ((depFinset g kv.1).card : Int) = 0 := by rw [← this, hz]
    exact_mod_cast hz2
  · intro ⟨hxk, hcard⟩
    have hget : dGet (initIndeg g) x = some 0 := by
      rw [hv x hxk, hcard]
      rfl
    have hmem : (x, (0 : Int)) ∈ initIndeg g := dGet_some_pair_mem hget
    apply List.mem_map.mpr
    refine ⟨(x, 0), List.mem_filter.mpr ⟨hmem, by simp⟩, rfl⟩

theorem kahnInit (g : PartGraph) (hwf : GraphWF g) :
    KahnInv g (initIndeg g)
      (((initIndeg g).filter (fun kv => kv.2 = 0)).map Prod.fst) [] := by
  obtain ⟨hk, hv⟩ := initIndeg_spec g hwf
  have hqnd : ((((initIndeg g).filter (fun kv => kv.2 = 0)).map Prod.fst)).Nodup := by
    apply List.Nodup.sublist (dKeys_filter_sublist Int (initIndeg g) _)
    rw [show (initIndeg g).map Prod.fst = dKeys (initIndeg g) from rfl, hk]
    exact hwf.partsNodup
  constructor
  · exact hk
  · intro p hp
    rw [hv p hp]
    simp
  · simpa using hqnd
  · intro x hx
    simp only [List.nil_append] at hx
    exact ((queue0_mem g hwf x).mp hx).1
  · intro p hp
    simp only [List.not_mem_nil, false_or, List.toFinset_nil]
    rw [queue0_mem g hwf p]
    rw [Finset.subset_empty, ← Finset.card_eq_zero]
    constructor
    · intro h
      exact h.2
    · intro h
      exact ⟨hp, h⟩
  · trivial

/-- Graph for the C4 and C6 style counterexamples: A and B form a
dependency cycle and C depends on A (C is on no cycle itself). -/
def c4g : PartGraph :=
  ((PartGraph.empty.add_part { name := "A", dependencies := ["B"] }).add_part
    { name := "B", dependencies := ["A"] }).add_part
    { name := "C", dependencies := ["A"] }

/-- C4 counterexample: part C of `c4g` is registered and lies on no
dependency cycle, yet `topological_sort` omits it (the whole result is
empty), because C transitively depends on the A-B cycle. -/
theorem C4_counterexample :
    "C" ∈ dKeys c4g.parts ∧
      ¬ Relation.TransGen (depEdge c4g) "C" "C" ∧
      "C" ∉ c4g.topological_sort := by
  refine ⟨by decide, ?_, by decide⟩
  have hnoin : ∀ y, ¬ depEdge c4g "C" y := by
    intro y ⟨hadj, _⟩
    have hall : ∀ kv ∈ c4g.adj, "C" ∉ kv.2 := by decide
    unfold PartGraph.adjOf at hadj
    cases hd : dGet c4g.adj y with
    | none => rw [hd] at hadj; simp at hadj
    | some l =>
        rw [hd] at hadj
        simp only [Option.getD_some] at hadj
        exact hall (y, l) (dGet_some_pair_mem hd) hadj
  intro htg
  have hgen : ∀ b, Relation.TransGen (depEdge c4g) "C" b → False := by
    intro b h
    induction h with
    | single h => exact hnoin _ h
    | tail _ _ ih => exact ih
  exact hgen "C" htg

/-- C4 (amended): for every well-formed graph, `topological_sort` lists
each part at most once, lists only registered parts, never places a part
before one of its dependencies that exists in the graph, and lists exactly
the parts below which the existing-dependency relation is well-founded —
i.e. it omits every cycle member and also every part that transitively
depends on a cycle, not only the cycle members themselves. -/
theorem C4_topological_sort_spec (g : PartGraph) (hwf : GraphWF g) :
    (g.topological_sort).Nodup ∧
    (∀ l1 p l2, g.topological_sort = l1 ++ p :: l2 → ∀ q, depEdge g q p → q ∈ l1) ∧
    (∀ p, p ∈ g.topological_sort ↔ p ∈ dKeys g.parts ∧ Acc (depEdge g) p) := by
  have hinit := kahnInit g hwf
  have hlen : (dKeys g.parts).length <
      ([] : List String).length + (g.parts.length + 1) := by
    simp [dKeys]
  obtain ⟨ind2, hfin⟩ := kahnLoop_spec g hwf (g.parts.length + 1) (initIndeg g)
    (((initIndeg g).filter (fun kv => kv.2 = 0)).map Prod.fst) [] hinit hlen
  have hres : g.topological_sort = kahnLoop g (g.parts.length + 1) (initIndeg g)
      (((initIndeg g).filter (fun kv => kv.2 = 0)).map Prod.fst) [] := rfl
  rw [← hres] at hfin
  refine ⟨by simpa using hfin.nodup, ?_, ?_⟩
  · intro l1 p l2 hsplit q hdep
    have hgood := hfin.good
    rw [hsplit] at hgood
    have := GoodSeq.ordered g l1 ∅ p l2 hgood ((mem_depFinset g p q).mpr hdep)
    rw [Finset.empty_union] at this
    exact List.mem_toFinset.mp this
  · intro p
    constructor
    · intro hp
      refine ⟨hfin.inNames p (by simpa using hp), ?_⟩
      exact GoodSeq.acc g (g.topological_sort) ∅
        (fun x hx => absurd hx (Finset.not_mem_empty x)) hfin.good p hp
    · intro ⟨hpn, hacc⟩
      induction hacc with
      | intro x hstep ih =>
          by_contra hnr
          have hiff := hfin.memIff x hpn
          simp only [List.not_mem_nil, or_false] at hiff
          have hnsub : ¬ depFinset g x ⊆ (g.topological_sort).toFinset :=
            fun hc => hnr (hiff.mpr hc)
          obtain ⟨q, hqA, hqR⟩ := Finset.not_subset.mp hnsub
          have hdep := (mem_depFinset g x q).mp hqA
          exact hqR (List.mem_toFinset.mpr (ih q hdep hdep.2))

/-- Small well-formed DAG used to witness C4: X, then Y depending on X. -/
def c4wit : PartGraph :=
  (PartGraph.empty.add_part { name := "X" }).add_part
    { name := "Y", dependencies := ["X"] }

/-- Witness for C4: the well-formedness hypothesis holds for a concrete
graph and the theorem applies to it. -/
theorem C4_topological_sort_spec_witness :
    GraphWF c4wit ∧
    ((c4wit.topological_sort).Nodup ∧
    (∀ l1 p l2, c4wit.topological_sort = l1 ++ p :: l2 →
      ∀ q, depEdge c4wit q p → q ∈ l1) ∧
    (∀ p, p ∈ c4wit.topological_sort ↔
      p ∈ dKeys c4wit.parts ∧ Acc (depEdge c4wit) p)) := by
  have hwf : GraphWF c4wit := ⟨by decide, by decide, by decide, by decide, by decide⟩
  exact ⟨hwf, C4_topological_sort_spec c4wit hwf⟩

/-! ### remove_part: dictionary update lemmas -/

theorem dKeys_dSet_not_mem {α : Type} (d : PyDict α) (k : String) (v : α)
    (h : k ∉ dKeys d) : dKeys (dSet d k v) = dKeys d ++ [k] := by
  induction d with
  | nil => rfl
  | cons kv rest ih =>
      rw [dSet]
      have hne : kv.1 ≠ k := by
        intro hc
        exact h (by simp [dKeys, hc])
      rw [if_neg hne]
      have h2 : k ∉ dKeys rest := fun hc => h (by simp [dKeys] at hc ⊢; exact Or.inr hc)
      show kv.1 :: dKeys (dSet rest k v) = (kv.1 :: dKeys rest) ++ [k]
      rw [ih h2]
      rfl

theorem dGet_append_single_ne {α : Type} (d : PyDict α) (k q : String) (v : α)
    (h : q ≠ k) : dGet (d ++ [(k, v)]) q = dGet d q := by
  induction d with
  | nil =>
      show (if k = q then some v else dGet [] q) = none
      rw [if_neg (fun hc => h hc.symm)]
      rfl
  | cons kv rest ih =>
      show (if kv.1 = q then some kv.2 else dGet (rest ++ [(k, v)]) q) =
        (if kv.1 = q then some kv.2 else dGet rest q)
      by_cases hq : kv.1 = q
      · rw [if_pos hq, if_pos hq]
      · rw [if_neg hq, if_neg hq, ih]

theorem dGet_dDel_ne {α : Type} (d : PyDict α) (k q : String) (h : q ≠ k) :
    dGet (dDel d k) q = dGet d q := by
  induction d with
  | nil => rfl
  | cons kv rest ih =>
      rw [dDel]
      by_cases hk : kv.1 = k
      · rw [if_pos hk, dGet, if_neg (by rw [hk]; exact fun hc => h hc.symm)]
      · rw [if_neg hk, dGet, dGet]
        by_cases hq : kv.1 = q
        · rw [if_pos hq, if_pos hq]
        · rw [if_neg hq, if_neg hq, ih]

theorem dGet_dDel_self {α : Type} (d : PyDict α) (k : String)
    (h : (dKeys d).Nodup) : dGet (dDel d k) k = none := by
  induction d with
  | nil => rfl
  | cons kv rest ih =>
      rw [dDel]
      have hnd := List.nodup_cons.mp h
      by_cases hk : kv.1 = k
      · rw [if_pos hk]
        rw [dGet_eq_none]
        rw [← hk]
        exact hnd.1
      · rw [if_neg hk, dGet, if_neg hk]
        exact ih hnd.2

theorem dKeys_dDel_sublist {α : Type} (d : PyDict α) (k : String) :
    (dKeys (dDel d k)).Sublist (dKeys d) := by
  induction d with
  | nil => exact List.Sublist.refl _
  | cons kv rest ih =>
      rw [dDel]
      by_cases hk : kv.1 = k
      · rw [if_pos hk]
        exact (List.sublist_cons_self kv.1 (dKeys rest))
      · rw [if_neg hk]
        exact List.Sublist.cons₂ kv.1 ih
/-- Reading from a defaultdict: the two behaviours of `ddGet`. -/
theorem ddGet_of_some {α : Type} {d : PyDict α} {k : String} {v dfl : α}
    (h : dGet d k = some v) : ddGet d k dfl = (v, d) := by
  unfold ddGet
  rw [h]

theorem ddGet_of_none {α : Type} {d : PyDict α} {k : String} {dfl : α}
    (h : dGet d k = none) : ddGet d k dfl = (dfl, d ++ [(k, dfl)]) := by
  unfold ddGet
  rw [h]

theorem dGet_append_single_self {α : Type} (d : PyDict α) (k : String) (v : α)
    (h : dGet d k = none) : dGet (d ++ [(k, v)]) k = some v := by
  induction d with
  | nil => simp [dGet]
  | cons kv rest ih =>
      rw [dGet] at h
      show (if kv.1 = k then some kv.2 else dGet (rest ++ [(k, v)]) k) = some v
      split at h
      · exact absurd h (by simp)
      · rename_i hk
        rw [if_neg hk]
        exact ih h

/-- Per-step effect of the first repair loop body. -/
theorem removeDepF_spec (name : String) (g : PartGraph) (dep : String) :
    (removeDepF name g dep).adj = g.adj ∧
    dKeys (removeDepF name g dep).parts = dKeys g.parts ∧
    dGet (removeDepF name g dep).rev dep = some ((g.revOf dep).erase name) ∧
    (∀ q, q ≠ dep → dGet (removeDepF name g dep).rev q = dGet g.rev q) ∧
    dGet (removeDepF name g dep).parts dep =
      (dGet g.parts dep).map (fun p => { p with dependents := p.dependents.erase name }) ∧
    (∀ q, q ≠ dep → dGet (removeDepF name g dep).parts q = dGet g.parts q) ∧
    (∀ k ∈ dKeys g.rev, k ∈ dKeys (removeDepF name g dep).rev) ∧
    ((dKeys g.rev).Nodup → (dKeys (removeDepF name g dep).rev).Nodup) := by
  have hrev : (removeDepF name g dep).rev =
      dSet (ddGet g.rev dep []).2 dep (setDiscard (ddGet g.rev dep []).1 name) := by
    unfold removeDepF
    cases dGet g.parts dep <;> rfl
  have hadj : (removeDepF name g dep).adj = g.adj := by
    unfold removeDepF
    cases dGet g.parts dep <;> rfl
  have hparts : ∀ q, dGet (removeDepF name g dep).parts q =
      (if q = dep then
        (dGet g.parts q).map (fun p => { p with dependents := p.dependents.erase name })
      else dGet g.parts q) := by
    intro q
    unfold removeDepF
    cases hp : dGet g.parts dep with
    | none =>
        by_cases hq : q = dep
        · rw [if_pos hq, hq, hp]
          rfl
        · rw [if_neg hq]
    | some p =>
        by_cases hq : q = dep
        · subst hq
          rw [if_pos rfl, hp]
          show dGet (dSet g.parts q _) q = _
          rw [dGet_dSet_self]
          rfl
        · rw [if_neg hq]
          show dGet (dSet g.parts dep _) q = _
          rw [dGet_dSet_ne _ _ _ _ _ hq]
  have hpkeys : dKeys (removeDepF name g dep).parts = dKeys g.parts := by
    unfold removeDepF
    cases hp : dGet g.parts dep with
    | none => rfl
    | some p =>
        show dKeys (dSet g.parts dep _) = _
        exact dKeys_dSet_of_mem Part g.parts dep _ (dGet_some_mem_dKeys hp)
  refine ⟨hadj, hpkeys, ?_, ?_, ?_, ?_, ?_, ?_⟩
  · rw [hrev]
    cases hr : dGet g.rev dep with
    | none =>
        rw [ddGet_of_none hr, dGet_dSet_self]
        unfold PartGraph.revOf setDiscard
        rw [hr]
        rfl
    | some l =>
        rw [ddGet_of_some hr, dGet_dSet_self]
        unfold PartGraph.revOf setDiscard
        rw [hr]
        rfl
  · intro q hq
    rw [hrev]
    cases hr : dGet g.rev dep with
    | none =>
        rw [ddGet_of_none hr, dGet_dSet_ne _ _ _ _ _ hq,
          dGet_append_single_ne _ _ _ _ hq]
    | some l =>
        rw [ddGet_of_some hr, dGet_dSet_ne _ _ _ _ _ hq]
  · rw [hparts dep, if_pos rfl]
  · intro q hq
    rw [hparts q, if_neg hq]
  · intro k hk
    rw [hrev]
    cases hr : dGet g.rev dep with
    | none =>
        rw [ddGet_of_none hr]
        have hdepmem : dep ∈ dKeys (g.rev ++ [(dep, [])]) :=
          dGet_some_mem_dKeys (dGet_append_single_self g.rev dep [] hr)
        rw [dKeys_dSet_of_mem _ _ _ _ hdepmem]
        unfold dKeys
        rw [List.map_append]
        exact List.mem_append_left _ hk
    | some l =>
        rw [ddGet_of_some hr, dKeys_dSet_of_mem _ _ _ _ (dGet_some_mem_dKeys hr)]
        exact hk
  · intro hnd
    rw [hrev]
    cases hr : dGet g.rev dep with
    | none =>
        rw [ddGet_of_none hr]
        have hdm : dep ∉ dKeys g.rev := (dGet_eq_none _ _ _).mp hr
        have hdepmem : dep ∈ dKeys (g.rev ++ [(dep, [])]) :=
          dGet_some_mem_dKeys (dGet_append_single_self g.rev dep [] hr)
        rw [dKeys_dSet_of_mem _ _ _ _ hdepmem]
        unfold dKeys
        rw [List.map_append]
        simp only [List.map_cons, List.map_nil]
        rw [List.nodup_append]
        refine ⟨hnd, List.nodup_singleton dep, ?_⟩
        intro a ha hc
        simp at hc
        rw [hc] at ha
        exact hdm ha
    | some l =>
        rw [ddGet_of_some hr, dKeys_dSet_of_mem _ _ _ _ (dGet_some_mem_dKeys hr)]
        exact hnd

/-- Per-step effect of the second repair loop body, symmetric to
`removeDepF_spec`. -/
theorem removeDependentF_spec (name : String) (g : PartGraph) (dep : String) :
    (removeDependentF name g dep).rev = g.rev ∧
    dKeys (removeDependentF name g dep).parts = dKeys g.parts ∧
    dGet (removeDependentF name g dep).adj dep = some ((g.adjOf dep).erase name) ∧
    (∀ q, q ≠ dep → dGet (removeDependentF name g dep).adj q = dGet g.adj q) ∧
    dGet (removeDependentF name g dep).parts dep =
      (dGet g.parts dep).map
        (fun p => { p with dependencies := p.dependencies.erase name }) ∧
    (∀ q, q ≠ dep → dGet (removeDependentF name g dep).parts q = dGet g.parts q) ∧
    (∀ k ∈ dKeys g.adj, k ∈ dKeys (removeDependentF name g dep).adj) ∧
    ((dKeys g.adj).Nodup → (dKeys (removeDependentF name g dep).adj).Nodup) := by
  have hadj2 : (removeDependentF name g dep).adj =
      dSet (ddGet g.adj dep []).2 dep (setDiscard (ddGet g.adj dep []).1 name) := by
    unfold removeDependentF
    cases dGet g.parts dep <;> rfl
  have hrev2 : (removeDependentF name g dep).rev = g.rev := by
    unfold removeDependentF
    cases dGet g.parts dep <;> rfl
  have hparts : ∀ q, dGet (removeDependentF name g dep).parts q =
      (if q = dep then
        (dGet g.parts q).map (fun p => { p with dependencies := p.dependencies.erase name })
      else dGet g.parts q) := by
    intro q
    unfold removeDependentF
    cases hp : dGet g.parts dep with
    | none =>
        by_cases hq : q = dep
        · rw [if_pos hq, hq, hp]
          rfl
        · rw [if_neg hq]
    | some p =>
        by_cases hq : q = dep
        · subst hq
          rw [if_pos rfl, hp]
          show dGet (dSet g.parts q _) q = _
          rw [dGet_dSet_self]
          rfl
        · rw [if_neg hq]
          show dGet (dSet g.parts dep _) q = _
          rw [dGet_dSet_ne _ _ _ _ _ hq]
  have hpkeys : dKeys (removeDependentF name g dep).parts = dKeys g.parts := by
    unfold removeDependentF
    cases hp : dGet g.parts dep with
    | none => rfl
    | some p =>
        show dKeys (dSet g.parts dep _) = _
        exact dKeys_dSet_of_mem Part g.parts dep _ (dGet_some_mem_dKeys hp)
  refine ⟨hrev2, hpkeys, ?_, ?_, ?_, ?_, ?_, ?_⟩
  · rw [hadj2]
    cases hr : dGet g.adj dep with
    | none =>
        rw [ddGet_of_none hr, dGet_dSet_self]
        unfold PartGraph.adjOf setDiscard
        rw [hr]
        rfl
    | some l =>
        rw [ddGet_of_some hr, dGet_dSet_self]
        unfold PartGraph.adjOf setDiscard
        rw [hr]
        rfl
  · intro q hq
    rw [hadj2]
    cases hr : dGet g.adj dep with
    | none =>
        rw [ddGet_of_none hr, dGet_dSet_ne _ _ _ _ _ hq,
          dGet_append_single_ne _ _ _ _ hq]
    | some l =>
        rw [ddGet_of_some hr, dGet_dSet_ne _ _ _ _ _ hq]
  · rw [hparts dep, if_pos rfl]
  · intro q hq
    rw [hparts q, if_neg hq]
  · intro k hk
    rw [hadj2]
    cases hr : dGet g.adj dep with
    | none =>
        rw [ddGet_of_none hr]
        have hdepmem : dep ∈ dKeys (g.adj ++ [(dep, [])]) :=
          dGet_some_mem_dKeys (dGet_append_single_self g.adj dep [] hr)
        rw [dKeys_dSet_of_mem _ _ _ _ hdepmem]
        unfold dKeys
        rw [List.map_append]
        exact List.mem_append_left _ hk
    | some l =>
        rw [ddGet_of_some hr, dKeys_dSet_of_mem _ _ _ _ (dGet_some_mem_dKeys hr)]
        exact hk
  · intro hnd
    rw [hadj2]
    cases hr : dGet g.adj dep with
    | none =>
        rw [ddGet_of_none hr]
        have hdm : dep ∉ dKeys g.adj := (dGet_eq_none _ _ _).mp hr
        have hdepmem : dep ∈ dKeys (g.adj ++ [(dep, [])]) :=
          dGet_some_mem_dKeys (dGet_append_single_self g.adj dep [] hr)
        rw [dKeys_dSet_of_mem _ _ _ _ hdepmem]
        unfold dKeys
        rw [List.map_append]
        simp only [List.map_cons, List.map_nil]
        rw [List.nodup_append]
        refine ⟨hnd, List.nodup_singleton dep, ?_⟩
        intro a ha hc
        simp at hc
        rw [hc] at ha
        exact hdm ha
    | some l =>
        rw [ddGet_of_some hr, dKeys_dSet_of_mem _ _ _ _ (dGet_some_mem_dKeys hr)]
        exact hnd

theorem removeDepFold_spec (name : String) :
    ∀ (L : List String), L.Nodup → ∀ (g : PartGraph),
      (L.foldl (removeDepF name) g).adj = g.adj ∧
      dKeys (L.foldl (removeDepF name) g).parts = dKeys g.parts ∧
      (∀ q, q ∉ L → dGet (L.foldl (removeDepF name) g).rev q = dGet g.rev q) ∧
      (∀ q ∈ L, dGet (L.foldl (removeDepF name) g).rev q =
        some ((g.revOf q).erase name)) ∧
      (∀ q, q ∉ L → dGet (L.foldl (removeDepF name) g).parts q = dGet g.parts q) ∧
      (∀ q ∈ L, dGet (L.foldl (removeDepF name) g).parts q =
        (dGet g.parts q).map
          (fun p => { p with dependents := p.dependents.erase name })) ∧
      (∀ k ∈ dKeys g.rev, k ∈ dKeys (L.foldl (removeDepF name) g).rev) ∧
      ((dKeys g.rev).Nodup → (dKeys (L.foldl (removeDepF name) g).rev).Nodup) := by
  intro L
  induction L with
  | nil =>
      intro _ g
      exact ⟨rfl, rfl, fun q _ => rfl, fun q hq => absurd hq (List.not_mem_nil q),
        fun q _ => rfl, fun q hq => absurd hq (List.not_mem_nil q),
        fun k hk => hk, fun h => h⟩
  | cons d L ih =>
      intro hnd g
      have hdL : d ∉ L := (List.nodup_cons.mp hnd).1
      have hLnd : L.Nodup := (List.nodup_cons.mp hnd).2
      obtain ⟨S1, S2, S3, S4, S5, S6, S7, S8⟩ := removeDepF_spec name g d
      obtain ⟨I1, I2, I3, I4, I5, I6, I7, I8⟩ := ih hLnd (removeDepF name g d)
      rw [List.foldl_cons]
      refine ⟨by rw [I1, S1], by rw [I2, S2], ?_, ?_, ?_, ?_, ?_, ?_⟩
      · intro q hq
        have hqd : q ≠ d := fun hc => hq (by simp [hc])
        have hqL : q ∉ L := fun hc => hq (List.mem_cons_of_mem d hc)
        rw [I3 q hqL, S4 q hqd]
      · intro q hq
        rcases List.mem_cons.mp hq with hq | hq
        · subst hq
          rw [I3 q hdL, S3]
        · rw [I4 q hq]
          have hqd : q ≠ d := fun hc => hdL (hc ▸ hq)
          have hrevEq : (removeDepF name g d).revOf q = g.revOf q := by
            unfold PartGraph.revOf
            rw [S4 q hqd]
          rw [hrevEq]
      · intro q hq
        have hqd : q ≠ d := fun hc => hq (by simp [hc])
        have hqL : q ∉ L := fun hc => hq (List.mem_cons_of_mem d hc)
        rw [I5 q hqL, S6 q hqd]
      · intro q hq
        rcases List.mem_cons.mp hq with hq | hq
        · subst hq
          rw [I5 q hdL, S5]
        · rw [I6 q hq]
          have hqd : q ≠ d := fun hc => hdL (hc ▸ hq)
          rw [S6 q hqd]
      · intro k hk
        exact I7 k (S7 k hk)
      · intro h
        exact I8 (S8 h)

theorem removeDependentFold_spec (name : String) :
    ∀ (L : List String), L.Nodup → ∀ (g : PartGraph),
      (L.foldl (removeDependentF name) g).rev = g.rev ∧
      dKeys (L.foldl (removeDependentF name) g).parts = dKeys g.parts ∧
      (∀ q, q ∉ L → dGet (L.foldl (removeDependentF name) g).adj q = dGet g.adj q) ∧
      (∀ q ∈ L, dGet (L.foldl (removeDependentF name) g).adj q =
        some ((g.adjOf q).erase name)) ∧
      (∀ q, q ∉ L → dGet (L.foldl (removeDependentF name) g).parts q = dGet g.parts q) ∧
      (∀ q ∈ L, dGet (L.foldl (removeDependentF name) g).parts q =
        (dGet g.parts q).map
          (fun p => { p with dependencies := p.dependencies.erase name })) ∧
      (∀ k ∈ dKeys g.adj, k ∈ dKeys (L.foldl (removeDependentF name) g).adj) ∧
      ((dKeys g.adj).Nodup → (dKeys (L.foldl (removeDependentF name) g).adj).Nodup) := by
  intro L
  induction L with
  | nil =>
      intro _ g
      exact ⟨rfl, rfl, fun q _ => rfl, fun q hq => absurd hq (List.not_mem_nil q),
        fun q _ => rfl, fun q hq => absurd hq (List.not_mem_nil q),
        fun k hk => hk, fun h => h⟩
  | cons d L ih =>
      intro hnd g
      have hdL : d ∉ L := (List.nodup_cons.mp hnd).1
      have hLnd : L.Nodup := (List.nodup_cons.mp hnd).2
      obtain ⟨S1, S2, S3, S4, S5, S6, S7, S8⟩ := removeDependentF_spec name g d
      obtain ⟨I1, I2, I3, I4, I5, I6, I7, I8⟩ := ih hLnd (removeDependentF name g d)
      rw [List.foldl_cons]
      refine ⟨by rw [I1, S1], by rw [I2, S2], ?_, ?_, ?_, ?_, ?_, ?_⟩
      · intro q hq
        have hqd : q ≠ d := fun hc => hq (by simp [hc])
        have hqL : q ∉ L := fun hc => hq (List.mem_cons_of_mem d hc)
        rw [I3 q hqL, S4 q hqd]
      · intro q hq
        rcases List.mem_cons.mp hq with hq | hq
        · subst hq
          rw [I3 q hdL, S3]
        · rw [I4 q hq]
          have hqd : q ≠ d := fun hc => hdL (hc ▸ hq)
          have hadjEq : (removeDependentF name g d).adjOf q = g.adjOf q := by
            unfold PartGraph.adjOf
            rw [S4 q hqd]
          rw [hadjEq]
      · intro q hq
        have hqd : q ≠ d := fun hc => hq (by simp [hc])
        have hqL : q ∉ L := fun hc => hq (List.mem_cons_of_mem d hc)
        rw [I5 q hqL, S6 q hqd]
      · intro q hq
        rcases List.mem_cons.mp hq with hq | hq
        · subst hq
          rw [I5 q hdL, S5]
        · rw [I6 q hq]
          have hqd : q ≠ d := fun hc => hdL (hc ▸ hq)
          rw [S6 q hqd]
      · intro k hk
        exact I7 k (S7 k hk)
      · intro h
        exact I8 (S8 h)

/-- Graph for the C6 counterexample: a single part with no dependencies,
so neither adjacency defaultdict ever acquired a key for it. -/
def c6bad : PartGraph := PartGraph.empty.add_part { name := "A" }

/-- C6 counterexample: removing the registered, dependency-less part A
raises `KeyError` (from `del self._adj_list["A"]`) instead of terminating
normally, refuting the claim that `remove_part` never raises. -/
theorem C6_counterexample : c6bad.remove_part "A" = .error (.keyError "A") := by
  rfl

/-- C6 (amended): `remove_part(name)` is a no-op returning normally when
`name` is unregistered.  When `name` is registered, its stored dependency
and dependents lists are duplicate-free, and both internal adjacency maps
have an entry for `name` (otherwise the trailing `del` raises `KeyError`),
the call returns normally with the part gone from the part dict and both
maps, the first occurrence of `name` erased from each listed neighbour's
`dependents`/`dependencies` list, `name` discarded from each neighbour's
edge set, and every other part and edge set left unchanged. -/
theorem C6_remove_part_spec (g : PartGraph) (name : String)
    (hpn : (dKeys g.parts).Nodup) (han : (dKeys g.adj).Nodup)
    (hrn : (dKeys g.rev).Nodup) :
    (dGet g.parts name = none → g.remove_part name = .ok g) ∧
    (∀ part, dGet g.parts name = some part →
      part.dependencies.Nodup → part.dependents.Nodup →
      dMem g.adj name = true → dMem g.rev name = true →
      ∃ g3, g.remove_part name = .ok g3 ∧
        dGet g3.parts name = none ∧
        dMem g3.adj name = false ∧
        dMem g3.rev name = false ∧
        (∀ q, q ≠ name → dGet g3.parts q = (dGet g.parts q).map (fun p =>
          { p with
            dependents := if q ∈ part.dependencies then p.dependents.erase name
              else p.dependents,
            dependencies := if q ∈ part.dependents then p.dependencies.erase name
              else p.dependencies })) ∧
        (∀ q, q ≠ name → g3.adjOf q =
          (if q ∈ part.dependents then (g.adjOf q).erase name else g.adjOf q)) ∧
        (∀ q, q ≠ name → g3.revOf q =
          (if q ∈ part.dependencies then (g.revOf q).erase name else g.revOf q))) := by
  constructor
  · intro h
    unfold PartGraph.remove_part
    rw [h]
  · intro part hsome hnd1 hnd2 hma hmr
    obtain ⟨A1, A2, A3, A4, A5, A6, A7, A8⟩ := removeDepFold_spec name
      part.dependencies hnd1 g
    set g1 := part.dependencies.foldl (removeDepF name) g with hg1
    obtain ⟨B1, B2, B3, B4, B5, B6, B7, B8⟩ := removeDependentFold_spec name
      part.dependents hnd2 g1
    set g2 := part.dependents.foldl (removeDependentF name) g1 with hg2
    have hg2adjKeys : ∀ k ∈ dKeys g.adj, k ∈ dKeys g2.adj := by
      intro k hk
      apply B7
      rw [A1]
      exact hk
    have hg2revKeys : ∀ k ∈ dKeys g.rev, k ∈ dKeys g2.rev := by
      intro k hk
      rw [B1]
      exact A7 k hk
    have hma2 : dMem g2.adj name = true :=
      (dMem_iff _ _ _).mpr (hg2adjKeys name ((dMem_iff _ _ _).mp hma))
    have hmr2 : dMem g2.rev name = true :=
      (dMem_iff _ _ _).mpr (hg2revKeys name ((dMem_iff _ _ _).mp hmr))
    have hrun : g.remove_part name = .ok
        { parts := dDel g2.parts name, adj := dDel g2.adj name,
          rev := dDel g2.rev name } := by
      unfold PartGraph.remove_part
      rw [hsome]
      simp only [← hg1, ← hg2, hma2, hmr2, if_true]
    have hpk2 : dKeys g2.parts = dKeys g.parts := by rw [B2, A2]
    have hak2 : (dKeys g2.adj).Nodup := B8 (by rw [A1]; exact han)
    have hrk2 : (dKeys g2.rev).Nodup := by rw [B1]; exact A8 hrn
    refine ⟨_, hrun, ?_, ?_, ?_, ?_, ?_, ?_⟩
    · exact dGet_dDel_self g2.parts name (by rw [hpk2]; exact hpn)
    · show (dGet (dDel g2.adj name) name).isSome = false
      rw [dGet_dDel_self g2.adj name hak2]
      rfl
    · show (dGet (dDel g2.rev name) name).isSome = false
      rw [dGet_dDel_self g2.rev name hrk2]
      rfl
    · intro q hq
      show dGet (dDel g2.parts name) q = _
      rw [dGet_dDel_ne _ _ _ hq]
      by_cases h2 : q ∈ part.dependents
      · rw [B6 q h2]
        by_cases h1 : q ∈ part.dependencies
        · rw [A6 q h1]
          cases dGet g.parts q with
          | none => simp
          | some p =>
              simp only [Option.map_some']
              rw [if_pos h1, if_pos h2]
        · rw [A5 q h1]
          cases dGet g.parts q with
          | none => simp
          | some p =>
              simp only [Option.map_some']
              rw [if_neg h1, if_pos h2]
      · rw [B5 q h2]
        by_cases h1 : q ∈ part.dependencies
        · rw [A6 q h1]
          cases dGet g.parts q with
          | none => simp
          | some p =>
              simp only [Option.map_some']
              rw [if_pos h1, if_neg h2]
        · rw [A5 q h1]
          cases dGet g.parts q with
          | none => simp
          | some p =>
              simp only [Option.map_some']
              rw [if_neg h1, if_neg h2]
    · intro q hq
      show ((dGet (dDel g2.adj name) q).getD []) = _
      rw [dGet_dDel_ne _ _ _ hq]
      by_cases h2 : q ∈ part.dependents
      · rw [B4 q h2, if_pos h2]
        have : g1.adjOf q = g.adjOf q := by
          unfold PartGraph.adjOf
          rw [A1]
        rw [this]
        rfl
      · rw [B3 q h2, if_neg h2]
        show g1.adjOf q = g.adjOf q
        unfold PartGraph.adjOf
        rw [A1]
    · intro q hq
      show ((dGet (dDel g2.rev name) q).getD []) = _
      rw [dGet_dDel_ne _ _ _ hq, B1]
      by_cases h1 : q ∈ part.dependencies
      · rw [A4 q h1, if_pos h1]
        rfl
      · rw [A3 q h1, if_neg h1]
        rfl

/-- Chain graph used to witness C6: A, B depends on A, C depends on B, so
part B has entries in both adjacency maps. -/
def c6wit : PartGraph :=
  ((PartGraph.empty.add_part { name := "A" }).add_part
    { name := "B", dependencies := ["A"] }).add_part
    { name := "C", dependencies := ["B"] }

/-- Witness for C6: the amended theorem applies to the concrete chain graph
at part B, whose removal succeeds. -/
theorem C6_remove_part_spec_witness :
    ∃ g3, c6wit.remove_part "B" = .ok g3 ∧ dGet g3.parts "B" = none ∧
      dMem g3.adj "B" = false ∧ dMem g3.rev "B" = false := by
  obtain ⟨_, h2⟩ := C6_remove_part_spec c6wit "B" (by decide) (by decide) (by decide)
  obtain ⟨g3, hok, hnone, hadj, hrev, _⟩ := h2
    { name := "B", dependencies := ["A"], dependents := ["C"] }
    (by decide) (by decide) (by decide) (by decide) (by decide)
  exact ⟨g3, hok, hnone, hadj, hrev⟩

/-! ## `src/core/diff_guard.py` -/

/-- Python `\s` for the ASCII inputs handled here. -/
def pyIsSpace (c : Char) : Bool :=
  c = ' ' || c = '\t' || c = '\n' || c = '\r' || c = '\x0b' || c = '\x0c'

/-- Python `\w` (ASCII). -/
def pyIsWord (c : Char) : Bool :=
  (c ≥ 'a' && c ≤ 'z') || (c ≥ 'A' && c ≤ 'Z') || (c ≥ '0' && c ≤ '9') || c = '_'

/-- First character of a Python identifier (`[a-zA-Z_]`). -/
def pyIsIdentStart (c : Char) : Bool :=
  (c ≥ 'a' && c ≤ 'z') || (c ≥ 'A' && c ≤ 'Z') || c = '_'

/-- A digit or a dot (`[\d.]`). -/
def pyIsDigitDot (c : Char) : Bool := c.isDigit || c = '.'

/-- Model of `str.splitlines()` for newline-separated text: split on newline, one
trailing empty piece (from a trailing newline, or an empty string) dropped. -/
def pySplitlines (s : String) : List String :=
  let parts := s.splitOn "\n"
  match parts.getLast? with
  | some "" => parts.dropLast
  | _ => parts

/-- The tail `\s*=\s*[\d.]+\s*$` of the assignment-line patterns, applied
after the identifier has been consumed. -/
def matchAssignTail (cs : List Char) : Bool :=
  match cs.dropWhile pyIsSpace with
  | '=' :: rest =>
      let afterSp := rest.dropWhile pyIsSpace
      let digits := afterSp.takeWhile pyIsDigitDot
      !digits.isEmpty && ((afterSp.dropWhile pyIsDigitDot).dropWhile pyIsSpace).isEmpty
  | _ => false

/-- Model of `DiffGuard._is_parameter_line`: the line matches
`^\s*[a-zA-Z_]\w*\s*=\s*[\d.]+\s*$`. -/
def DiffGuard_is_parameter_line (line : String) : Bool :=
  let cs := line.data.dropWhile pyIsSpace
  match cs with
  | [] => false
  | c :: _ => pyIsIdentStart c && matchAssignTail (cs.dropWhile pyIsWord)

/-- The per-variable pattern `^\s*(var)\s*=\s*[\d.]+\s*$` of
`DiffGuard._protect_variables` (`re.escape` makes the name literal). -/
def matchesVarLine (var : String) (line : String) : Bool :=
  let cs := line.data.dropWhile pyIsSpace
  decide (cs.take var.data.length = var.data) &&
    matchAssignTail (cs.drop var.data.length)

/-- Model of `DiffGuard` state. -/
structure DiffGuard where
  original_code : String := ""
  user_edits : List (Nat × String) := []
  protected_regions : List (Nat × Nat) := []
  protected_variables : List String := []
  deriving DecidableEq, Repr

/-- Model of `DiffGuard.set_original`. -/
def DiffGuard.set_original (dg : DiffGuard) (code : String) : DiffGuard :=
  { dg with original_code := code, user_edits := [], protected_regions := [] }

/-- Model of `DiffGuard.protect_variable`. -/
def DiffGuard.protect_variable (dg : DiffGuard) (var : String) : DiffGuard :=
  { dg with protected_variables :=
      if var ∈ dg.protected_variables then dg.protected_variables
      else dg.protected_variables ++ [var] }

/-- Model of `DiffGuard.unprotect_variable`. -/
def DiffGuard.unprotect_variable (dg : DiffGuard) (var : String) : DiffGuard :=
  { dg with protected_variables := dg.protected_variables.erase var }

/-- Model of `DiffGuard.clear`. -/
def DiffGuard.clear (_ : DiffGuard) : DiffGuard := {}

/-- Model of `DiffGuard._protect_variables`: for each line, the first protected
variable whose assignment pattern matches the line is looked up among the
tracked edited lines; the first matching edit replaces the line, otherwise
the line is kept. -/
def DiffGuard_protect_variables (dg : DiffGuard) (lines : List String) : List String :=
  lines.foldl
    (fun result line =>
      match dg.protected_variables.find? (fun v => matchesVarLine v line) with
      | some v =>
          match (dg.user_edits.map Prod.snd).find? (fun e => matchesVarLine v e) with
          | some e => result ++ [e]
          | none => result ++ [line]
      | none => result ++ [line])
    []

/-- Model of `DiffGuard.merge_code`: with no tracked edits and no protected
variables the fresh code is returned unchanged; otherwise tracked
parameter-assignment lines overwrite the fresh lines positionally and
protected variables are restored from the tracked edits. -/
def DiffGuard.merge_code (dg : DiffGuard) (new_code : String) : String :=
  if dg.user_edits = [] ∧ dg.protected_variables = [] then new_code
  else
    let new_lines := pySplitlines new_code
    let result_lines := dg.user_edits.foldl
      (fun rl (kv : Nat × String) =>
        if kv.1 < rl.length then
          if DiffGuard_is_parameter_line kv.2 then rl.set kv.1 kv.2 else rl
        else rl)
      new_lines
    let result_lines :=
      if dg.protected_variables ≠ [] then DiffGuard_protect_variables dg result_lines
      else result_lines
    "\n".intercalate result_lines

/-- C7 (confirmed): when the guard tracks no user edits and protects no
variables, `merge_code` returns the fresh code unchanged. -/
theorem C7_merge_code_identity (dg : DiffGuard) (new_code : String)
    (h1 : dg.user_edits = []) (h2 : dg.protected_variables = []) :
    dg.merge_code new_code = new_code := by
  unfold DiffGuard.merge_code
  rw [if_pos ⟨h1, h2⟩]

/-- Witness for C7 at a concrete empty guard and a concrete fresh text. -/
theorem C7_merge_code_identity_witness :
    ({} : DiffGuard).merge_code "width = 100\nheight = 50" =
      "width = 100\nheight = 50" :=
  C7_merge_code_identity {} "width = 100\nheight = 50" rfl rfl

/-! ## `src/core/plan_validator.py` -/

/-- Model of `str.lower()` (ASCII). -/
def pyLower (s : String) : String := ⟨s.data.map Char.toLower⟩

/-- Python substring test `needle in hay`. -/
def listContains (hay needle : List Char) : Bool :=
  needle.isPrefixOf hay ||
    match hay with
    | [] => false
    | _ :: t => listContains t needle

/-- A validator diagnostic; the Python code formats these as f-strings, the
embedding keeps the interpolated data structurally. -/
inductive Issue : Type
  | floating (name : String) (z : Rat)
  | negativeDim (name : String) (value : Rat)
  | largeDim (name : String) (value : Rat)
  | missingDep (name : String) (dep : String)
  deriving DecidableEq, Repr

/-- One attempt of the regex `[-+]?\d*\.?\d+` at the head of the text:
optional sign, greedy digits, then a fractional part only when a dot is
followed by at least one digit (backtracking drops a bare trailing dot).
Returns the parsed value (as an exact rational, standing in for Python
`float`) and the unconsumed suffix. -/
def matchNumber (cs : List Char) : Option (Rat × List Char) :=
  let sign : Bool × List Char :=
    match cs with
    | '-' :: t => (true, t)
    | '+' :: t => (false, t)
    | _ => (false, cs)
  let ip := sign.2.takeWhile Char.isDigit
  let cs2 := sign.2.dropWhile Char.isDigit
  let value : List Char → List Char → Rat := fun intp fracp =>
    let mag : Nat := (intp ++ fracp).foldl (fun n c => 10 * n + (c.toNat - 48)) 0
    mkRat (if sign.1 then -(mag : Int) else (mag : Int)) (10 ^ fracp.length)
  match cs2 with
  | '.' :: t =>
      let fp := t.takeWhile Char.isDigit
      if fp.isEmpty then
        if ip.isEmpty then none else some (value ip [], cs2)
      else some (value ip fp, t.dropWhile Char.isDigit)
  | _ => if ip.isEmpty then none else some (value ip [], cs2)

/-- Model of `re.findall` scan for the number pattern: try a match at each
position, resuming after each match. -/
def scanNumbers : Nat → List Char → List Rat
  | 0, _ => []
  | _, [] => []
  | f + 1, c :: rest =>
      match matchNumber (c :: rest) with
      | some (v, remaining) => v :: scanNumbers f remaining
      | none => scanNumbers f rest

/-- The numeric tokens of a free-text description. -/
def pyFindNumbers (s : String) : List Rat := scanNumbers s.data.length s.data

/-- Model of `PlanValidator._is_nearby_xy` (threshold 100): the comparison
`sqrt(dx*dx + dy*dy) < 100` is taken in the equivalent squared form. -/
def PlanValidator_is_nearby_xy (loc1 loc2 : List Rat) : Except PyErr Bool := do
  let a ← pyIndex loc1 0
  let b ← pyIndex loc2 0
  let c ← pyIndex loc1 1
  let d ← pyIndex loc2 1
  pure (decide ((a - b) * (a - b) + (c - d) * (c - d) < 100 * 100))

/-- The inner `for other in plan` scan of `PlanValidator._check_floating`:
`other["name"]` is read without a default and raises `KeyError` on an item
with no name. -/
def supportScan (name : String) (location : List Rat) :
    List PlanItem → Except PyErr Bool
  | [] => .ok false
  | other :: rest =>
      match other.name with
      | none => .error (.keyError "name")
      | some oname =>
          if oname = name then supportScan name location rest
          else do
            let other_loc := other.location.getD [0, 0, 0]
            let oz ← pyIndex other_loc 2
            let z ← pyIndex location 2
            if oz < z then do
              let near ← PlanValidator_is_nearby_xy location other_loc
              if near then .ok true else supportScan name location rest
            else supportScan name location rest

def checkSupportLoop (plan : List PlanItem) (name : String) (location : List Rat) :
    Except PyErr Bool :=
  supportScan name location plan

/-- The outer loop of `PlanValidator._check_floating`. -/
def checkFloatingLoop (plan : List PlanItem) :
    List PlanItem → List Issue → Except PyErr (List Issue)
  | [], issues => .ok issues
  | item :: rest, issues => do
      let name := item.name.getD "unknown"
      let location := item.location.getD [0, 0, 0]
      let deps := item.dependencies.getD []
      let z ← pyIndex location 2
      if z > 0 ∧ deps = [] then do
        let hs ← checkSupportLoop plan name location
        if hs then checkFloatingLoop plan rest issues
        else checkFloatingLoop plan rest (issues ++ [Issue.floating name z])
      else checkFloatingLoop plan rest issues

/-- Model of `PlanValidator._check_floating`. -/
def PlanValidator_check_floating (plan : List PlanItem) : Except PyErr (List Issue) :=
  checkFloatingLoop plan plan []

/-- Model of `PlanValidator._check_dimensions`: every numeric token of every
description is screened; a negative value is flagged unless the lowercased
description contains \"angle\" anywhere, and a magnitude above 10000 is
flagged as large.  (`float` conversion never fails on tokens of this
pattern, so the `except ValueError` path is dead.) -/
def PlanValidator_check_dimensions (plan : List PlanItem) : List Issue :=
  plan.foldl
    (fun issues item =>
      let name := item.name.getD "unknown"
      let desc := item.description.getD ""
      (pyFindNumbers desc).foldl
        (fun issues num =>
          let issues :=
            if num < 0 ∧ ¬ (listContains (pyLower desc).data "angle".data = true) then
              issues ++ [Issue.negativeDim name num]
            else issues
          if 10000 < |num| then issues ++ [Issue.largeDim name num] else issues)
        issues)
    []

/-- Model of `PlanValidator._check_dependencies`: `part_names` is the set of
`item.get("name")` values, so an absent name contributes `None`. -/
def PlanValidator_check_dependencies (plan : List PlanItem) : List Issue :=
  let part_names := plan.map (fun item => item.name)
  plan.foldl
    (fun issues item =>
      let name := item.name.getD "unknown"
      let deps := item.dependencies.getD []
      deps.foldl
        (fun issues dep =>
          if (some dep) ∈ part_names then issues
          else issues ++ [Issue.missingDep name dep])
        issues)
    []

/-- Model of `PlanValidator.validate`: the three checks run in order and their
issue lists are concatenated; an exception from the floating check
propagates. -/
def PlanValidator_validate (plan : List PlanItem) : Except PyErr (Bool × List Issue) := do
  let floating ← PlanValidator_check_floating plan
  let issues := floating ++ PlanValidator_check_dimensions plan ++
    PlanValidator_check_dependencies plan
  pure (issues.isEmpty, issues)

theorem foldl_append_form {α β : Type} (g : List β → α → List β) (f : α → List β)
    (hg : ∀ acc x, g acc x = acc ++ f x) :
    ∀ (l : List α) (acc : List β), l.foldl g acc = acc ++ (l.map f).flatten := by
  intro l
  induction l with
  | nil => intro acc; simp
  | cons x l ih =>
      intro acc
      rw [List.foldl_cons, hg, ih]
      simp [List.append_assoc]

/-- The issues contributed by one numeric token of one item. -/
def numIssues (name : String) (angleFree : Prop) [Decidable angleFree]
    (num : Rat) : List Issue :=
  (if num < 0 ∧ angleFree then [Issue.negativeDim name num] else []) ++
    (if 10000 < |num| then [Issue.largeDim name num] else [])

/-- The issues contributed by one plan item in the dimension check. -/
def itemDimIssues (item : PlanItem) : List Issue :=
  ((pyFindNumbers (item.description.getD "")).map
    (numIssues (item.name.getD "unknown")
      (¬ (listContains (pyLower (item.description.getD "")).data "angle".data = true)))).flatten

theorem check_dimensions_flat (plan : List PlanItem) :
    PlanValidator_check_dimensions plan = (plan.map itemDimIssues).flatten := by
  unfold PlanValidator_check_dimensions
  rw [foldl_append_form _ itemDimIssues]
  · simp
  · intro acc item
    unfold itemDimIssues
    rw [foldl_append_form _
      (numIssues (item.name.getD "unknown")
        (¬ (listContains (pyLower (item.description.getD "")).data "angle".data = true)))]
    intro acc2 num
    unfold numIssues
    split <;> split <;> simp

theorem listContains_iff (hay needle : List Char) :
    listContains hay needle = true ↔ ∃ pre post, hay = pre ++ needle ++ post := by
  induction hay with
  | nil =>
      rw [listContains]
      simp only [Bool.or_false]
      rw [List.isPrefixOf_iff_prefix]
      constructor
      · intro h
        obtain ⟨t, ht⟩ := h
        exact ⟨[], t, by simp [← ht]⟩
      · intro ⟨pre, post, h⟩
        obtain ⟨h3, _⟩ := List.append_eq_nil.mp h.symm
        obtain ⟨_, h4⟩ := List.append_eq_nil.mp h3
        rw [h4]
  | cons c t ih =>
      rw [listContains]
      rw [Bool.or_eq_true, List.isPrefixOf_iff_prefix, ih]
      constructor
      · intro h
        rcases h with ⟨s, hs⟩ | ⟨pre, post, h⟩
        · exact ⟨[], s, by simp [← hs]⟩
        · exact ⟨c :: pre, post, by simp [h]⟩
      · intro ⟨pre, post, h⟩
        cases pre with
        | nil =>
            refine Or.inl ⟨post, ?_⟩
            simp at h
            rw [h]
        | cons p pre =>
            refine Or.inr ⟨pre, post, ?_⟩
            simp at h
            simpa [List.append_assoc] using h.2

/-- Membership of a negative-dimension issue in the per-token issue list. -/
theorem mem_numIssues_negative (name : String) (P : Prop) [Decidable P]
    (num : Rat) (nm : String) (q : Rat) :
    Issue.negativeDim nm q ∈ numIssues name P num ↔
      (nm = name ∧ q = num ∧ num < 0 ∧ P) := by
  unfold numIssues
  by_cases h1 : num < 0 ∧ P <;> by_cases h2 : 10000 < |num| <;>
    simp [h1, h2]

theorem mem_numIssues_large (name : String) (P : Prop) [Decidable P]
    (num : Rat) (nm : String) (q : Rat) :
    Issue.largeDim nm q ∈ numIssues name P num ↔
      (nm = name ∧ q = num ∧ 10000 < |num|) := by
  unfold numIssues
  by_cases h1 : num < 0 ∧ P <;> by_cases h2 : 10000 < |num| <;>
    simp [h1, h2]

/-- C8 counterexample: in the description \"angle bracket, offset -5\" the
token -5 is negative and the word \"angle\" is not adjacent to it, yet the
dimension check flags nothing, because the code only tests whether
\"angle\" occurs anywhere in the description. -/
theorem C8_counterexample :
    pyFindNumbers "angle bracket, offset -5" = [-5] ∧
    PlanValidator_check_dimensions
      [{ name := some "p", description := some "angle bracket, offset -5" }] = [] := by
  constructor
  · decide
  · decide

/-- C8 (amended): the dimension check flags, for each plan item, exactly
the numeric tokens of its description that are negative — but only when
the lowercased description does not contain the substring \"angle\"
anywhere (a description-wide test, not an adjacency test) — and exactly
the tokens whose magnitude exceeds 10000. -/
theorem C8_check_dimensions_spec (plan : List PlanItem) (nm : String) (q : Rat) :
    (Issue.negativeDim nm q ∈ PlanValidator_check_dimensions plan ↔
      ∃ item ∈ plan, item.name.getD "unknown" = nm ∧
        q ∈ pyFindNumbers (item.description.getD "") ∧ q < 0 ∧
        ¬ ∃ pre post, (pyLower (item.description.getD "")).data =
          pre ++ "angle".data ++ post) ∧
    (Issue.largeDim nm q ∈ PlanValidator_check_dimensions plan ↔
      ∃ item ∈ plan, item.name.getD "unknown" = nm ∧
        q ∈ pyFindNumbers (item.description.getD "") ∧ 10000 < |q|) := by
  rw [check_dimensions_flat]
  constructor
  · rw [List.mem_flatten]
    constructor
    · intro ⟨l, hl, hm⟩
      obtain ⟨item, hitem, rfl⟩ := List.mem_map.mp hl
      unfold itemDimIssues at hm
      rw [List.mem_flatten] at hm
      obtain ⟨l2, hl2, hm2⟩ := hm
      obtain ⟨num, hnum, rfl⟩ := List.mem_map.mp hl2
      rw [mem_numIssues_negative] at hm2
      obtain ⟨h1, h2, h3, h4⟩ := hm2
      refine ⟨item, hitem, h1.symm, h2 ▸ hnum, h2 ▸ h3, ?_⟩
      rw [← listContains_iff]
      simpa using h4
    · intro ⟨item, hitem, h1, h2, h3, h4⟩
      refine ⟨itemDimIssues item, List.mem_map.mpr ⟨item, hitem, rfl⟩, ?_⟩
      unfold itemDimIssues
      rw [List.mem_flatten]
      refine ⟨_, List.mem_map.mpr ⟨q, h2, rfl⟩, ?_⟩
      rw [mem_numIssues_negative]
      rw [← listContains_iff] at h4
      exact ⟨h1.symm, rfl, h3, by simpa using h4⟩
  · rw [List.mem_flatten]
    constructor
    · intro ⟨l, hl, hm⟩
      obtain ⟨item, hitem, rfl⟩ := List.mem_map.mp hl
      unfold itemDimIssues at hm
      rw [List.mem_flatten] at hm
      obtain ⟨l2, hl2, hm2⟩ := hm
      obtain ⟨num, hnum, rfl⟩ := List.mem_map.mp hl2
      rw [mem_numIssues_large] at hm2
      obtain ⟨h1, h2, h3⟩ := hm2
      exact ⟨item, hitem, h1.symm, h2 ▸ hnum, h2 ▸ h3⟩
    · intro ⟨item, hitem, h1, h2, h3⟩
      refine ⟨itemDimIssues item, List.mem_map.mpr ⟨item, hitem, rfl⟩, ?_⟩
      unfold itemDimIssues
      rw [List.mem_flatten]
      refine ⟨_, List.mem_map.mpr ⟨q, h2, rfl⟩, ?_⟩
      rw [mem_numIssues_large]
      exact ⟨h1.symm, rfl, h3⟩

/-- Bind on a successful / failed `Except` computation. -/
theorem exceptBind_ok {e a b : Type} (x : a) (f : a → Except e b) :
    (Except.ok x >>= f) = f x := rfl

theorem exceptBind_error {e a b : Type} (err : e) (f : a → Except e b) :
    ((Except.error err : Except e a) >>= f) = Except.error err := rfl

/-- An index below a valid index is also valid. -/
theorem pyIndex_ok_le {α : Type} (l : List α) (i : Nat) (z : α)
    (h : pyIndex l 2 = .ok z) (hi : i ≤ 2) : ∃ a, pyIndex l i = .ok a := by
  unfold pyIndex at h ⊢
  cases h2 : l.get? 2 with
  | none => rw [h2] at h; exact absurd h (by simp)
  | some v =>
      obtain ⟨hlt, _⟩ := List.get?_eq_some.mp h2
      have hilt : i < l.length := lt_of_le_of_lt hi hlt
      rw [List.get?_eq_get hilt]
      exact ⟨l.get ⟨i, hilt⟩, rfl⟩

/-- The nearby test returns a value (never raises) when both locations
admit a third coordinate. -/
theorem is_nearby_ok (loc1 loc2 : List Rat) (z1 z2 : Rat)
    (h1 : pyIndex loc1 2 = .ok z1) (h2 : pyIndex loc2 2 = .ok z2) :
    ∃ b, PlanValidator_is_nearby_xy loc1 loc2 = .ok b := by
  obtain ⟨a, ha⟩ := pyIndex_ok_le loc1 0 z1 h1 (by omega)
  obtain ⟨b, hb⟩ := pyIndex_ok_le loc2 0 z2 h2 (by omega)
  obtain ⟨c, hc⟩ := pyIndex_ok_le loc1 1 z1 h1 (by omega)
  obtain ⟨d, hd⟩ := pyIndex_ok_le loc2 1 z2 h2 (by omega)
  unfold PlanValidator_is_nearby_xy
  rw [ha, hb, hc, hd]
  exact ⟨_, rfl⟩

/-- The support scan raises the name `KeyError` outright when no scanned
item sits strictly below the floating item (so the break is unreachable)
and some scanned item carries no name. -/
theorem supportScan_err (name0 : String) (loc0 : List Rat) (z0 : Rat)
    (hz : pyIndex loc0 2 = .ok z0) :
    ∀ L : List PlanItem,
      (∀ r ∈ L, ∀ zr, pyIndex (r.location.getD [0, 0, 0]) 2 = .ok zr → z0 ≤ zr) →
      (∀ r ∈ L, ∃ zr, pyIndex (r.location.getD [0, 0, 0]) 2 = .ok zr) →
      (∃ q ∈ L, q.name = none) →
      supportScan name0 loc0 L = .error (.keyError "name") := by
  intro L
  induction L with
  | nil =>
      intro _ _ hq
      obtain ⟨q, hq, _⟩ := hq
      exact absurd hq (List.not_mem_nil q)
  | cons other rest ih =>
      intro hmin hall hq
      cases hname : other.name with
      | none => simp [supportScan, hname]
      | some oname =>
          simp only [supportScan, hname]
          have hqrest : ∃ q ∈ rest, q.name = none := by
            obtain ⟨q, hqm, hqn⟩ := hq
            rcases List.mem_cons.mp hqm with h | h
            · rw [h] at hqn; rw [hqn] at hname; exact absurd hname (by simp)
            · exact ⟨q, h, hqn⟩
          have htail := ih (fun r hr => hmin r (List.mem_cons_of_mem _ hr))
            (fun r hr => hall r (List.mem_cons_of_mem _ hr)) hqrest
          by_cases he : oname = name0
          · rw [if_pos he]
            exact htail
          · rw [if_neg he]
            obtain ⟨zr, hzr⟩ := hall other (List.mem_cons_self _ _)
            rw [hzr, hz]
            have hle := hmin other (List.mem_cons_self _ _) zr hzr
            have hnlt : ¬ (zr < z0) := not_lt.mpr hle
            simp only [exceptBind_ok]
            rw [if_neg hnlt]
            exact htail

/-- The support scan never returns false when some scanned item carries no
name: it either hits the `KeyError` or breaks on a support. -/
theorem supportScan_not_false (name0 : String) (loc0 : List Rat) (z0 : Rat)
    (hz : pyIndex loc0 2 = .ok z0) :
    ∀ L : List PlanItem,
      (∀ r ∈ L, ∃ zr, pyIndex (r.location.getD [0, 0, 0]) 2 = .ok zr) →
      (∃ q ∈ L, q.name = none) →
      supportScan name0 loc0 L = .error (.keyError "name") ∨
        supportScan name0 loc0 L = .ok true := by
  intro L
  induction L with
  | nil =>
      intro _ hq
      obtain ⟨q, hq, _⟩ := hq
      exact absurd hq (List.not_mem_nil q)
  | cons other rest ih =>
      intro hall hq
      cases hname : other.name with
      | none => exact Or.inl (by simp [supportScan, hname])
      | some oname =>
          simp only [supportScan, hname]
          have hqrest : ∃ q ∈ rest, q.name = none := by
            obtain ⟨q, hqm, hqn⟩ := hq
            rcases List.mem_cons.mp hqm with h | h
            · rw [h] at hqn; rw [hqn] at hname; exact absurd hname (by simp)
            · exact ⟨q, h, hqn⟩
          have htail := ih (fun r hr => hall r (List.mem_cons_of_mem _ hr)) hqrest
          by_cases he : oname = name0
          · rw [if_pos he]
            exact htail
          · rw [if_neg he]
            obtain ⟨zr, hzr⟩ := hall other (List.mem_cons_self _ _)
            rw [hzr, hz]
            simp only [exceptBind_ok]
            by_cases hlt : zr < z0
            · rw [if_pos hlt]
              obtain ⟨b, hb⟩ := is_nearby_ok loc0 (other.location.getD [0, 0, 0])
                z0 zr hz hzr
              rw [hb]
              simp only [exceptBind_ok]
              cases b with
              | true => exact Or.inr (by rw [if_pos rfl])
              | false =>
                  rw [if_neg (by simp)]
                  exact htail
            · rw [if_neg hlt]
              exact htail

theorem checkFloatingLoop_err (plan : List PlanItem) (p : PlanItem) (zp : Rat)
    (hzp : pyIndex (p.location.getD [0, 0, 0]) 2 = .ok zp)
    (hzpos : 0 < zp)
    (hdeps : p.dependencies.getD [] = [])
    (hq : ∃ q ∈ plan, q.name = none)
    (hall : ∀ r ∈ plan, ∃ zr, pyIndex (r.location.getD [0, 0, 0]) 2 = .ok zr ∧ zp ≤ zr) :
    ∀ L : List PlanItem, (∀ r ∈ L, r ∈ plan) → p ∈ L → ∀ issues,
      checkFloatingLoop plan L issues = .error (.keyError "name") := by
  have hallz : ∀ r ∈ plan, ∃ zr, pyIndex (r.location.getD [0, 0, 0]) 2 = .ok zr :=
    fun r hr => (hall r hr).elim (fun zr h => ⟨zr, h.1⟩)
  intro L
  induction L with
  | nil => intro _ hp; exact absurd hp (List.not_mem_nil p)
  | cons item rest ih =>
      intro hsub hp issues
      have hitem : item ∈ plan := hsub item (List.mem_cons_self _ _)
      obtain ⟨zi, hzi, _⟩ := hall item hitem
      rw [checkFloatingLoop, hzi, exceptBind_ok]
      by_cases hguard : zi > 0 ∧ item.dependencies.getD [] = []
      · rw [if_pos hguard]
        by_cases hipp : item = p
        · have hscan : checkSupportLoop plan (item.name.getD "unknown")
              (item.location.getD [0, 0, 0]) = .error (.keyError "name") := by
            unfold checkSupportLoop
            exact supportScan_err _ _ zi hzi plan
              (fun r hr zr hzr => by
                obtain ⟨zr2, hzr2, hle⟩ := hall r hr
                rw [hzr2] at hzr
                have : zr2 = zr := by
                  have := hzr
                  simp at this
                  exact this
                rw [← this]
                have hzizp : zi = zp := by
                  rw [hipp] at hzi
                  rw [hzi] at hzp
                  simpa using hzp
                rw [hzizp]
                exact hle)
              hallz hq
          rw [hscan]
          rfl
        · have hprest : p ∈ rest := by
            rcases List.mem_cons.mp hp with h | h
            · exact absurd h.symm hipp
            · exact h
          have hsub2 : ∀ r ∈ rest, r ∈ plan :=
            fun r hr => hsub r (List.mem_cons_of_mem _ hr)
          rcases supportScan_not_false (item.name.getD "unknown")
              (item.location.getD [0, 0, 0]) zi hzi plan hallz hq with hscan | hscan
          · unfold checkSupportLoop
            rw [hscan]
            rfl
          · unfold checkSupportLoop
            rw [hscan, exceptBind_ok, if_pos rfl]
            exact ih hsub2 hprest issues
      · rw [if_neg hguard]
        have hprest : p ∈ rest := by
          rcases List.mem_cons.mp hp with h | h
          · exfalso
            apply hguard
            have hzi2 : pyIndex (p.location.getD [0, 0, 0]) 2 = .ok zi := by
              rw [h]; exact hzi
            have hzizp : zi = zp := Except.ok.inj (hzi2.symm.trans hzp)
            refine ⟨?_, ?_⟩
            · rw [hzizp]; exact hzpos
            · rw [← h]; exact hdeps
          · exact h
        exact ih (fun r hr => hsub r (List.mem_cons_of_mem _ hr)) hprest issues

/-- Plan for the C10 counterexample: a grounded named support S comes
first, then an item with no name key, then the floating part F; the scan
for each floating candidate breaks on S before ever reading the nameless
item's name. -/
def c10plan : List PlanItem :=
  [{ name := some "S", location := some [0, 0, 0] },
   { location := some [0, 0, 5] },
   { name := some "F", location := some [0, 0, 5] }]

/-- C10 counterexample: the plan contains a part with third coordinate 5
and no dependencies (F) and another item lacking the name key, yet
`validate` returns normally (no KeyError), because the support scan breaks
on the grounded part S before reaching the nameless item. -/
theorem C10_counterexample :
    (∃ item ∈ c10plan, item.name = some "F" ∧
      pyIndex (item.location.getD [0, 0, 0]) 2 = .ok 5 ∧
      item.dependencies.getD [] = []) ∧
    (∃ other ∈ c10plan, other.name = none) ∧
    PlanValidator_validate c10plan = .ok (true, []) := by
  refine ⟨⟨{ name := some "F", location := some [0, 0, 5] }, by decide, rfl, rfl, rfl⟩,
    ⟨{ location := some [0, 0, 5] }, by decide, rfl⟩, ?_⟩
  norm_num [PlanValidator_validate, PlanValidator_check_floating, checkFloatingLoop,
    checkSupportLoop, supportScan, PlanValidator_is_nearby_xy, pyIndex,
    PlanValidator_check_dimensions, PlanValidator_check_dependencies,
    pyFindNumbers, scanNumbers, c10plan, Except.bind, pure, Except.pure, bind]
  rfl

/-- C10 (amended): the floating-part check is indeed not total — but the
KeyError is raised only when the scan for some unsupported candidate
reaches the nameless item.  Whenever the plan contains a part with third
coordinate above 0 and no dependencies whose coordinate is minimal among
all items (so no support break is possible), and some item lacks the name
key, `_check_floating` and hence `validate` raise KeyError instead of
returning an issue list.  If a supporting item precedes the nameless item
in plan order the check can return normally. -/
theorem C10_validate_keyerror (plan : List PlanItem) (p : PlanItem) (zp : Rat)
    (hp : p ∈ plan)
    (hzp : pyIndex (p.location.getD [0, 0, 0]) 2 = .ok zp)
    (hzpos : 0 < zp)
    (hdeps : p.dependencies.getD [] = [])
    (hq : ∃ q ∈ plan, q.name = none)
    (hall : ∀ r ∈ plan, ∃ zr, pyIndex (r.location.getD [0, 0, 0]) 2 = .ok zr ∧ zp ≤ zr) :
    PlanValidator_check_floating plan = .error (.keyError "name") ∧
    PlanValidator_validate plan = .error (.keyError "name") := by
  have hfl : PlanValidator_check_floating plan = .error (.keyError "name") := by
    unfold PlanValidator_check_floating
    exact checkFloatingLoop_err plan p zp hzp hzpos hdeps hq hall plan
      (fun r hr => hr) hp []
  refine ⟨hfl, ?_⟩
  unfold PlanValidator_validate
  rw [hfl]
  rfl

/-- Plan witnessing the amended C10: the floating part F is at the minimal
height and an item lacks the name key, so validation raises KeyError. -/
def c10witPlan : List PlanItem :=
  [{ name := some "F", location := some [0, 0, 5] },
   { location := some [0, 0, 5] }]

/-- Witness for C10: the amended theorem applies to the concrete plan. -/
theorem C10_validate_keyerror_witness :
    PlanValidator_check_floating c10witPlan = .error (.keyError "name") ∧
    PlanValidator_validate c10witPlan = .error (.keyError "name") :=
  C10_validate_keyerror c10witPlan
    { name := some "F", location := some [0, 0, 5] } 5
    (by decide) rfl (by decide) rfl
    ⟨{ location := some [0, 0, 5] }, by decide, rfl⟩
    (by
      intro r hr
      rcases List.mem_cons.mp hr with h | h
      · exact ⟨5, by rw [h]; rfl, by decide⟩
      · have h2 : r = { location := some [0, 0, 5] } := by simpa using h
        exact ⟨5, by rw [h2]; rfl, by decide⟩)

/-! ## `src/core/code_emitter.py` -/

/-- Model of `PartGraph.get_part` (`self.parts.get(name)`). -/
def PartGraph.get_part (g : PartGraph) (name : String) : Option Part :=
  dGet g.parts name

/-- Python truthiness of the optional `selected_parts` argument
(`if selected_parts:`): both `None` and the empty list are falsy. -/
def pyTruthyList {α : Type} : Option (List α) → Bool
  | some l => !l.isEmpty
  | none => false

/-- Python `str.replace` for a single-character pattern, as used in
`_emit_assembly` (`p.replace(' ', '_').replace('-', '_')`). -/
def pySubstChar (c r : Char) (s : String) : String :=
  ⟨s.data.map (fun a => if a = c then r else a)⟩

/-- Model of `CodeEmitter._emit_imports`. -/
def CodeEmitter_emit_imports : String :=
  "from build123d import *\nfrom math import *\n\ntry:\n    from build123d import export_stl, export_step\nexcept ImportError:\n    pass\n\n"

/-- Model of `CodeEmitter._emit_assembly`. -/
def CodeEmitter_emit_assembly (parts : List String) : String :=
  if parts.isEmpty then ""
  else
    let parts_expr := String.intercalate ", "
      (parts.map (fun p => pySubstChar '-' '_' (pySubstChar ' ' '_' p) ++ "_part.part"))
    "# === Assembly ===\ncompound = Compound(children=[" ++ parts_expr ++ "])\n\n"

/-- Model of `CodeEmitter._emit_export`, with the constructor's
`self.output_dir = "output"` substituted into the f-string. -/
def CodeEmitter_emit_export : String :=
  "# === Export ===\nimport os\nos.makedirs(\"output\", exist_ok=True)\n\ntry:\n    export_stl(compound, \"output/model.stl\")\n    print(\"Exported to output/model.stl\")\nexcept Exception as e:\n    print(f\"STL export failed: {e}\")\n    try:\n        export_step(compound, \"output/model.step\")\n        print(\"Exported to output/model.step\")\n    except Exception as e2:\n        print(f\"STEP export failed: {e2}\")\n"

/-- Model of `CodeEmitter._get_parts_to_generate`. -/
def CodeEmitter_get_parts_to_generate (graph : PartGraph) (only_dirty : Bool)
    (selected_parts : Option (List String)) : List String :=
  let all_parts := dKeys graph.parts
  if pyTruthyList selected_parts then
    (selected_parts.getD []).filter (fun p => all_parts.contains p)
  else if only_dirty then graph.get_dirty_parts
  else all_parts

/-- One part's contribution to the emit loop body (`if part and part.code:`
appends the header line and the code block, otherwise nothing). -/
def partBlock (graph : PartGraph) (part_name : String) : String :=
  match graph.get_part part_name with
  | some part =>
      if part.code ≠ "" then "# === " ++ part.name ++ " ===\n" ++ part.code ++ "\n\n"
      else ""
  | none => ""

/-- Model of `CodeEmitter.emit`. -/
def CodeEmitter_emit (graph : PartGraph) (only_dirty : Bool)
    (selected_parts : Option (List String)) : String :=
  let parts_to_generate := CodeEmitter_get_parts_to_generate graph only_dirty selected_parts
  if parts_to_generate.isEmpty then ""
  else
    let sorted_order := graph.topological_sort
    let parts_to_generate := sorted_order.filter (fun p => parts_to_generate.contains p)
    let code := CodeEmitter_emit_imports
    let code := parts_to_generate.foldl (fun acc part_name => acc ++ partBlock graph part_name) code
    let code := code ++ CodeEmitter_emit_assembly parts_to_generate
    code ++ CodeEmitter_emit_export

/-- The working set exactly as the claim words it: `selected_parts` when
given (restricted to registered parts, as the code's filter does), else the
dirty parts when `only_dirty`, else all parts. -/
def workingSetSpec (graph : PartGraph) (only_dirty : Bool)
    (selected_parts : Option (List String)) : List String :=
  match selected_parts with
  | some sel => sel.filter (fun p => (dKeys graph.parts).contains p)
  | none => if only_dirty then graph.get_dirty_parts else dKeys graph.parts

/-- Concatenation of a list of strings in order. -/
def strJoin : List String → String
  | [] => ""
  | s :: t => s ++ strJoin t

theorem strAppend_empty (s : String) : s ++ "" = s := by
  cases s with
  | mk a => show String.mk (a ++ []) = ⟨a⟩
            rw [List.append_nil]

theorem strAppend_assoc (a b c : String) : a ++ b ++ c = a ++ (b ++ c) := by
  cases a with
  | mk x =>
      cases b with
      | mk y =>
          cases c with
          | mk z => show String.mk (x ++ y ++ z) = ⟨x ++ (y ++ z)⟩
                    rw [List.append_assoc]

theorem strAppend_eq_empty {s t : String} (h : s ++ t = "") : s = "" ∧ t = "" := by
  cases s with
  | mk a =>
      cases t with
      | mk b =>
          have h2 : a ++ b = [] := congrArg String.data h
          rcases List.append_eq_nil.mp h2 with ⟨ha, hb⟩
          exact ⟨by rw [ha], by rw [hb]⟩

theorem foldl_strAppend {α : Type} (f : α → String) :
    ∀ (l : List α) (acc : String),
      l.foldl (fun a x => a ++ f x) acc = acc ++ strJoin (l.map f) := by
  intro l
  induction l with
  | nil => intro acc; simp [strJoin, strAppend_empty]
  | cons x t ih =>
      intro acc
      rw [List.foldl_cons, ih, List.map_cons, strJoin, ← strAppend_assoc]

theorem emit_eq_of_ws_ne (graph : PartGraph) (od : Bool) (sel : Option (List String))
    (h : CodeEmitter_get_parts_to_generate graph od sel ≠ []) :
    CodeEmitter_emit graph od sel =
      CodeEmitter_emit_imports ++
      strJoin ((graph.topological_sort.filter
        (fun p => (CodeEmitter_get_parts_to_generate graph od sel).contains p)).map
        (partBlock graph)) ++
      CodeEmitter_emit_assembly (graph.topological_sort.filter
        (fun p => (CodeEmitter_get_parts_to_generate graph od sel).contains p)) ++
      CodeEmitter_emit_export := by
  have hne : ¬ ((CodeEmitter_get_parts_to_generate graph od sel).isEmpty = true) := by
    simpa [List.isEmpty_iff] using h
  unfold CodeEmitter_emit
  rw [if_neg hne]
  simp only [foldl_strAppend]

/-- Graph for the C9 counterexample: a single clean part with code. -/
def c9g : PartGraph :=
  PartGraph.empty.add_part { name := "A", code := "a_part = 1" }

/-- C9 counterexample: with `selected_parts` given as the empty list the
claim's working set is empty, so `emit` should return the empty string —
but the code tests the argument with Python truthiness, treats `[]` like
`None`, falls back to all parts, and emits a non-empty artifact. -/
theorem C9_counterexample :
    workingSetSpec c9g false (some []) = [] ∧
    CodeEmitter_get_parts_to_generate c9g false (some []) = ["A"] ∧
    CodeEmitter_emit c9g false (some []) ≠ "" := by
  refine ⟨rfl, by decide, ?_⟩
  decide

/-- C9 (amended): whenever `selected_parts` is not the given-but-empty
list, `_get_parts_to_generate` computes exactly the claim's working set;
for the given-but-empty list it instead behaves as if no selection was
given (Python truthiness).  `emit` returns the empty string exactly when
the computed working set is empty, and otherwise emits the import header,
then precisely the code blocks of the working-set parts in topological
order (parts outside the working set, unregistered names, and parts with
empty code contribute nothing, and parts the cyclic-graph topological sort
omits are also dropped), then the assembly and export trailers. -/
theorem C9_emit_spec (graph : PartGraph) (only_dirty : Bool)
    (selected_parts : Option (List String)) :
    (selected_parts ≠ some [] →
      CodeEmitter_get_parts_to_generate graph only_dirty selected_parts =
        workingSetSpec graph only_dirty selected_parts) ∧
    (CodeEmitter_get_parts_to_generate graph only_dirty (some []) =
      CodeEmitter_get_parts_to_generate graph only_dirty none) ∧
    (CodeEmitter_emit graph only_dirty selected_parts = "" ↔
      CodeEmitter_get_parts_to_generate graph only_dirty selected_parts = []) ∧
    (CodeEmitter_get_parts_to_generate graph only_dirty selected_parts ≠ [] →
      CodeEmitter_emit graph only_dirty selected_parts =
        CodeEmitter_emit_imports ++
        strJoin ((graph.topological_sort.filter
          (fun p => (CodeEmitter_get_parts_to_generate graph only_dirty
            selected_parts).contains p)).map (partBlock graph)) ++
        CodeEmitter_emit_assembly (graph.topological_sort.filter
          (fun p => (CodeEmitter_get_parts_to_generate graph only_dirty
            selected_parts).contains p)) ++
        CodeEmitter_emit_export) := by
  refine ⟨?_, rfl, ⟨?_, ?_⟩, emit_eq_of_ws_ne graph only_dirty selected_parts⟩
  · intro h
    cases selected_parts with
    | none => rfl
    | some s =>
        have hs : s ≠ [] := fun hc => h (by rw [hc])
        have ht : pyTruthyList (some s) = true := by
          simp [pyTruthyList, List.isEmpty_iff, hs]
        simp [CodeEmitter_get_parts_to_generate, workingSetSpec, ht, Option.getD]
  · intro h
    by_contra hws
    have hform := emit_eq_of_ws_ne graph only_dirty selected_parts hws
    rw [h] at hform
    have h1 := (strAppend_eq_empty hform.symm).2
    exact absurd h1 (by decide)
  · intro h
    simp [CodeEmitter_emit, h]

/-- Witness for C9: on the one-part graph with selection `["A"]` the
amended theorem's implications all fire. -/
theorem C9_emit_spec_witness :
    CodeEmitter_get_parts_to_generate c9g false (some ["A"]) =
      workingSetSpec c9g false (some ["A"]) ∧
    (CodeEmitter_emit c9g false (some ["A"]) = "" ↔
      CodeEmitter_get_parts_to_generate c9g false (some ["A"]) = []) ∧
    CodeEmitter_emit c9g false (some ["A"]) =
      CodeEmitter_emit_imports ++
      strJoin ((c9g.topological_sort.filter
        (fun p => (CodeEmitter_get_parts_to_generate c9g false
          (some ["A"])).contains p)).map (partBlock c9g)) ++
      CodeEmitter_emit_assembly (c9g.topological_sort.filter
        (fun p => (CodeEmitter_get_parts_to_generate c9g false
          (some ["A"])).contains p)) ++
      CodeEmitter_emit_export :=
  ⟨(C9_emit_spec c9g false (some ["A"])).1 (by decide),
   (C9_emit_spec c9g false (some ["A"])).2.2.1,
   (C9_emit_spec c9g false (some ["A"])).2.2.2 (by decide)⟩

/-! ## `src/CAD` multi-agent workflow (`graph.py`, `state.py`, `main.py`,
`agents/planner.py`, `agents/generator.py`, `agents/inspector.py`) -/

/-- Model of one item of a parsed plan's `structure`/`parts` arrays: a JSON
object whose `id` and `layer` keys may be absent.  The remaining keys
(`type`, `params`, ...) are only ever forwarded to the processing agents,
which this embedding abstracts as services. -/
structure PlanItemCAD where
  id : Option String := none
  layer : Option String := none
  deriving DecidableEq, Repr

/-- Model of a parsed plan dict (the `json.loads` output in `planner.py`):
each field is `none` when the key is absent; the `structure` key is spelt
`structureItems` because `structure` is a Lean keyword.  Parameter values
and the explanation are rendered as strings. -/
structure CADPlan where
  parameters : Option (PyDict String) := none
  structureItems : Option (List PlanItemCAD) := none
  parts : Option (List PlanItemCAD) := none
  explanation : Option String := none
  deriving DecidableEq, Repr

/-- Python truthiness of the plan in `if not plan:`: falsy when the plan is
`None` or the parsed object is the empty dict (all keys absent). -/
def planTruthy : Option CADPlan → Bool
  | none => false
  | some p =>
      !(p.parameters.isNone && p.structureItems.isNone && p.parts.isNone &&
        p.explanation.isNone)

/-- Model of `AgentState` (`state.py`).  An absent optional key and an
explicit `None` value behave identically under the `.get` reads the code
performs, so both are the field's default; `user_request` and
`iteration_count` are always supplied by `main.py`. -/
structure AgentState where
  user_request : String := ""
  plan : Option CADPlan := none
  worker_outputs : Option (PyDict String) := none
  full_code : Option String := none
  render_image_path : Option String := none
  inspector_feedback : Option String := none
  anchor_registry : PyDict String := []
  debug_metadata : PyDict String := []
  iteration_count : Int := 0
  messages : List String := []
  deriving DecidableEq, Repr

/-- A node's return value: the partial state dict langgraph merges into the
state (a `some` field is a key present in the returned dict; no node ever
stores `None` under a key it returns). -/
structure AgentUpdate where
  plan : Option CADPlan := none
  worker_outputs : Option (PyDict String) := none
  full_code : Option String := none
  inspector_feedback : Option String := none
  anchor_registry : Option (PyDict String) := none
  debug_metadata : Option (PyDict String) := none
  iteration_count : Option Int := none
  messages : Option (List String) := none
  deriving DecidableEq, Repr

/-- Langgraph state merge: keys present in the update overwrite the state
(`messages` in `state.py` carries no reducer annotation, so it overwrites
too). -/
def applyUpdate (s : AgentState) (u : AgentUpdate) : AgentState :=
  { user_request := s.user_request
    plan := match u.plan with | some p => some p | none => s.plan
    worker_outputs :=
      match u.worker_outputs with | some d => some d | none => s.worker_outputs
    full_code := match u.full_code with | some c => some c | none => s.full_code
    render_image_path := s.render_image_path
    inspector_feedback :=
      match u.inspector_feedback with | some f => some f | none => s.inspector_feedback
    anchor_registry := u.anchor_registry.getD s.anchor_registry
    debug_metadata := u.debug_metadata.getD s.debug_metadata
    iteration_count := u.iteration_count.getD s.iteration_count
    messages := u.messages.getD s.messages }

/-- Result of `solid_agent.generate`: either a plain string or a dict with
optional `code`, `anchors`, `bounding_box` keys (the code branches on
`isinstance(result, dict)`). -/
inductive SolidResult : Type
  | str (s : String)
  | dict (code : Option String) (anchors : Option String) (bounding_box : Option String)
  deriving DecidableEq, Repr

/-- The external services the workflow calls: the planner LLM response
(as a function of the user request and the optional feedback the two
message contents are built from), the planner's whole `try` block (thought
extraction, fence cleanup and `json.loads`, returning the thought and the
parsed plan; an `.error` carries `str(e)`), the three processing agents
(an `.error` models a raised exception), and the OpenSCAD renderer (which
catches its own failures and returns a path or `None`). -/
structure CADServices where
  planResp : String → Option String → String
  parseResp : String → Except String (String × CADPlan)
  loopGen : PlanItemCAD → PyDict String → Except String String
  profileGen : PlanItemCAD → PyDict String → Except String String
  solidGen : PlanItemCAD → PyDict String → Except String SolidResult
  renderScad : Option String

/-- Python slice `s[:n]`. -/
def pyTake (n : Nat) (s : String) : String := ⟨s.data.take n⟩

/-- Model of `PlannerAgent.plan`.  On parse success the compat shim copies
`structure` to `parts` when the latter is absent and the update carries the
plan, the bumped iteration count and two log messages; on any exception in
the `try` block the update carries only the error message, leaving `plan`
and `iteration_count` untouched. -/
def PlannerAgent.plan (svc : CADServices) (state : AgentState) : AgentUpdate :=
  let response := svc.planResp state.user_request state.inspector_feedback
  match svc.parseResp response with
  | .ok (thought, plan0) =>
      let plan :=
        match plan0.structureItems, plan0.parts with
        | some st, none => { plan0 with parts := some st }
        | _, _ => plan0
      { plan := some plan,
        iteration_count := some (state.iteration_count + 1),
        messages := some
          ["Planner Thought: " ++ pyTake 100 thought ++ "...",
           "Planner: Generated plan with " ++
             toString (plan.parts.getD []).length ++ " parts"] }
  | .error e => { messages := some ["Planner Error: " ++ e] }

/-- Rendering `str(e)` of a modelled exception, used only in the error
marker built by the (re-raising) `except` handler of `processing_step`. -/
def pyErrMsg : PyErr → String
  | .nameError n => "name '" ++ n ++ "' is not defined"
  | .keyError k => "'" ++ k ++ "'"
  | .attributeError m => "'NoneType' object has no attribute '" ++ m ++ "'"
  | .valueError m => m
  | .indexError => "list index out of range"
  | .exception m => m

/-- The write `outputs[item['id']] = v` inside the `try` block of
`processing_step`.  `outputs` is modelled as `Option (PyDict String)` with
`none` for an unbound name: the function never initialises it, so the name
lookup raises `NameError` before the subscript `item['id']` is evaluated. -/
def pyStoreItem (outputs : Option (PyDict String)) (item : PlanItemCAD)
    (v : String) : Except PyErr (PyDict String) :=
  match outputs with
  | none => .error (.nameError "outputs")
  | some d =>
      match item.id with
      | some k => .ok (dSet d k v)
      | none => .error (.keyError "id")

/-- The `try` block of the per-item loop in `processing_step`.  The
`"solid"` arm and the fallback arm differ only in anchors/bounding-box
bookkeeping that sits after the `outputs` write (and is unreachable
because that write raises), so they share one arm here. -/
def procTryBody (svc : CADServices) (params : PyDict String)
    (outputs : Option (PyDict String)) (item : PlanItemCAD) :
    Except PyErr (PyDict String) :=
  let layer := pyLower (item.layer.getD "solid")
  if layer = "loop" then
    match svc.loopGen item params with
    | .error e => .error (.exception e)
    | .ok code => pyStoreItem outputs item code
  else if layer = "profile" then
    match svc.profileGen item params with
    | .error e => .error (.exception e)
    | .ok code => pyStoreItem outputs item code
  else
    match svc.solidGen item params with
    | .error e => .error (.exception e)
    | .ok (.dict c _ _) => pyStoreItem outputs item (c.getD "")
    | .ok (.str s) => pyStoreItem outputs item s

/-- One iteration of the loop in `processing_step`: the `try` body, then
`except Exception as e`, whose handler first evaluates the marker f-string
(reading `item['id']`) and then assigns to the still-unbound `outputs`,
re-raising out of the handler. -/
def procItemStep (svc : CADServices) (params : PyDict String)
    (outputs : Option (PyDict String)) (item : PlanItemCAD) :
    Except PyErr (PyDict String) :=
  match procTryBody svc params outputs item with
  | .ok d => .ok d
  | .error e =>
      match item.id with
      | none => .error (.keyError "id")
      | some k =>
          let marker := "// Error generating " ++ k ++ ": " ++ pyErrMsg e
          match outputs with
          | none => .error (.nameError "outputs")
          | some d => .ok (dSet d k marker)

/-- The `for item in structure` loop of `processing_step` (a successful
subscript assignment leaves the name bound to the mutated dict). -/
def procLoop (svc : CADServices) (params : PyDict String) :
    List PlanItemCAD → Option (PyDict String) →
    Except PyErr (Option (PyDict String))
  | [], outputs => .ok outputs
  | item :: rest, outputs =>
      match procItemStep svc params outputs item with
      | .error e => .error e
      | .ok d => procLoop svc params rest (some d)

/-- Model of `processing_step` (`graph.py`).  The body writes
`outputs[item['id']]` and finally returns `{"worker_outputs": outputs, ...}`
without ever initialising `outputs`, so the final read raises `NameError`
even when the structure list is empty; the `.ok` success arm is reachable
only if `outputs` had somehow been bound (it carries the initialised-empty
anchors/metadata dicts, whose population is likewise unreachable). -/
def processing_step (svc : CADServices) (state : AgentState) :
    Except PyErr AgentUpdate :=
  if planTruthy state.plan = false then
    .ok { messages := some ["Error: No plan found"] }
  else
    let plan := state.plan.getD {}
    let structure0 := plan.structureItems.getD (plan.parts.getD [])
    let params := plan.parameters.getD []
    match procLoop svc params structure0 none with
    | .error e => .error e
    | .ok none => .error (.nameError "outputs")
    | .ok (some d) =>
        .ok { worker_outputs := some d, anchor_registry := some [],
              debug_metadata := some [] }

/-- Model of `GeneratorAgent.assemble`.  `plan.get("parameters", {})` on a
`None` plan raises `AttributeError`; otherwise the parameter block is
built and the context f-string evaluates `json.dumps`, but `generator.py`
never imports `json`, raising `NameError`. -/
def GeneratorAgent.assemble (state : AgentState) : Except PyErr AgentUpdate :=
  match state.plan with
  | none => .error (.attributeError "get")
  | some plan =>
      let _param_block :=
        (plan.parameters.getD []).foldl
          (fun acc kv => acc ++ kv.1 ++ " = " ++ kv.2 ++ ";\n") "// Parameters\n"
      .error (.nameError "json")

/-- Model of `InspectorAgent.inspect`.  `render_scad` catches its own
failures (returning a path or `None`), and the first content f-string then
evaluates `json.dumps(debug_metadata)`, but `inspector.py` never imports
`json`: the verdict and forced-PASS ceiling logic further down is
unreachable. -/
def InspectorAgent.inspect (svc : CADServices) (state : AgentState) :
    Except PyErr AgentUpdate :=
  let _image_path := svc.renderScad
  let _full_code := state.full_code.getD ""
  .error (.nameError "json")

/-- Model of the `planner_step` node wrapper in `graph.py` (the planner
itself catches its exceptions and always returns an update). -/
def planner_step (svc : CADServices) (state : AgentState) :
    Except PyErr AgentUpdate :=
  .ok (PlannerAgent.plan svc state)

/-- Model of the `generator_step` node wrapper in `graph.py`. -/
def generator_step (state : AgentState) : Except PyErr AgentUpdate :=
  GeneratorAgent.assemble state

/-- Model of the `inspector_step` node wrapper in `graph.py`. -/
def inspector_step (svc : CADServices) (state : AgentState) :
    Except PyErr AgentUpdate :=
  InspectorAgent.inspect svc state

/-- Model of `should_continue` (`graph.py`); langgraph's `END` sentinel is
the string `__end__`. -/
def should_continue (state : AgentState) : String :=
  let feedback := state.inspector_feedback.getD ""
  let iteration := state.iteration_count
  if listContains feedback.data ("PASS".data) &&
      !(listContains feedback.data ("FAIL".data)) then "__end__"
  else if iteration ≥ 3 then "__end__"
  else "planner"

/-- One pass through the compiled graph's linear edges
`planner → processors → generator → inspector`; an exception raised in a
node propagates out of `app.stream`. -/
def runIteration (svc : CADServices) (state : AgentState) :
    Except PyErr AgentState :=
  match planner_step svc state with
  | .error e => .error e
  | .ok u1 =>
      match processing_step svc (applyUpdate state u1) with
      | .error e => .error e
      | .ok u2 =>
          match generator_step (applyUpdate (applyUpdate state u1) u2) with
          | .error e => .error e
          | .ok u3 =>
              match inspector_step svc
                  (applyUpdate (applyUpdate (applyUpdate state u1) u2) u3) with
              | .error e => .error e
              | .ok u4 =>
                  .ok (applyUpdate
                    (applyUpdate (applyUpdate (applyUpdate state u1) u2) u3) u4)

/-- Model of running the compiled `app` from an entry state: iterate the
graph until `should_continue` routes to `END`, with fuel bounding the
number of iterations. -/
def runApp (svc : CADServices) : Nat → AgentState → Except PyErr AgentState
  | 0, state => .ok state
  | fuel + 1, state =>
      match runIteration svc state with
      | .error e => .error e
      | .ok s' =>
          if should_continue s' = "__end__" then .ok s'
          else runApp svc fuel s'

/-- Model of `initial_state` in `main.py`. -/
def initial_state (user_input : String) : AgentState :=
  { user_request := user_input, iteration_count := 0, messages := [] }

/-- Trivial service bundle: the planner response never parses and every
processing agent succeeds with an empty fragment. -/
def svcTrivial : CADServices :=
  { planResp := fun _ _ => ""
    parseResp := fun _ => .error "Expecting value: line 1 column 1 (char 0)"
    loopGen := fun _ _ => .ok ""
    profileGen := fun _ _ => .ok ""
    solidGen := fun _ _ => .ok (.str "")
    renderScad := none }

theorem procTryBody_unbound (svc : CADServices) (params : PyDict String)
    (item : PlanItemCAD) :
    ∃ e, procTryBody svc params none item = .error e := by
  unfold procTryBody
  by_cases hl : pyLower (item.layer.getD "solid") = "loop"
  · cases h : svc.loopGen item params with
    | error e => exact ⟨.exception e, by simp [hl, h]⟩
    | ok code => exact ⟨.nameError "outputs", by simp [hl, h, pyStoreItem]⟩
  · by_cases hp : pyLower (item.layer.getD "solid") = "profile"
    · cases h : svc.profileGen item params with
      | error e => exact ⟨.exception e, by simp [hl, hp, h]⟩
      | ok code => exact ⟨.nameError "outputs", by simp [hl, hp, h, pyStoreItem]⟩
    · cases h : svc.solidGen item params with
      | error e => exact ⟨.exception e, by simp [hl, hp, h]⟩
      | ok r =>
          cases r with
          | str s => exact ⟨.nameError "outputs", by simp [hl, hp, h, pyStoreItem]⟩
          | dict c a b => exact ⟨.nameError "outputs", by simp [hl, hp, h, pyStoreItem]⟩

theorem procItemStep_unbound_id (svc : CADServices) (params : PyDict String)
    (item : PlanItemCAD) (k : String) (hid : item.id = some k) :
    procItemStep svc params none item = .error (.nameError "outputs") := by
  obtain ⟨e, he⟩ := procTryBody_unbound svc params item
  unfold procItemStep
  rw [he, hid]

theorem procItemStep_unbound (svc : CADServices) (params : PyDict String)
    (item : PlanItemCAD) :
    ∃ e, procItemStep svc params none item = .error e := by
  cases hid : item.id with
  | some k => exact ⟨.nameError "outputs", procItemStep_unbound_id svc params item k hid⟩
  | none =>
      obtain ⟨e, he⟩ := procTryBody_unbound svc params item
      exact ⟨.keyError "id", by unfold procItemStep; rw [he, hid]⟩

theorem procLoop_unbound (svc : CADServices) (params : PyDict String)
    (item : PlanItemCAD) (rest : List PlanItemCAD) :
    ∃ e, procLoop svc params (item :: rest) none = .error e := by
  obtain ⟨e, he⟩ := procItemStep_unbound svc params item
  exact ⟨e, by simp only [procLoop, he]⟩

theorem processing_step_err (svc : CADServices) (state : AgentState)
    (h : planTruthy state.plan = true) :
    ∃ e, processing_step svc state = .error e := by
  have hne : ¬ (planTruthy state.plan = false) := by simp [h]
  unfold processing_step
  rw [if_neg hne]
  cases hst : (state.plan.getD {}).structureItems.getD
      ((state.plan.getD {}).parts.getD []) with
  | nil => exact ⟨.nameError "outputs", by simp only [hst, procLoop]⟩
  | cons item rest =>
      obtain ⟨e, he⟩ := procLoop_unbound svc ((state.plan.getD {}).parameters.getD []) item rest
      exact ⟨e, by simp only [hst, he]⟩

theorem processing_step_falsy (svc : CADServices) (state : AgentState)
    (h : planTruthy state.plan = false) :
    processing_step svc state = .ok { messages := some ["Error: No plan found"] } := by
  unfold processing_step
  rw [if_pos h]

theorem generator_step_err (s : AgentState) :
    generator_step s = .error (match s.plan with
      | none => PyErr.attributeError "get"
      | some _ => PyErr.nameError "json") := by
  unfold generator_step GeneratorAgent.assemble
  cases s.plan <;> rfl

theorem runIteration_eq (svc : CADServices) (state : AgentState) :
    runIteration svc state =
      match processing_step svc (applyUpdate state (PlannerAgent.plan svc state)) with
      | .error e => .error e
      | .ok u2 =>
          match generator_step
              (applyUpdate (applyUpdate state (PlannerAgent.plan svc state)) u2) with
          | .error e => .error e
          | .ok u3 =>
              match inspector_step svc
                  (applyUpdate (applyUpdate (applyUpdate state
                    (PlannerAgent.plan svc state)) u2) u3) with
              | .error e => .error e
              | .ok u4 =>
                  .ok (applyUpdate (applyUpdate (applyUpdate (applyUpdate state
                    (PlannerAgent.plan svc state)) u2) u3) u4) := rfl

theorem runIteration_of_proc_ok (svc : CADServices) (state : AgentState)
    (u : AgentUpdate)
    (hu : processing_step svc (applyUpdate state (PlannerAgent.plan svc state)) = .ok u) :
    runIteration svc state =
      match generator_step
          (applyUpdate (applyUpdate state (PlannerAgent.plan svc state)) u) with
      | .error e => .error e
      | .ok u3 =>
          match inspector_step svc
              (applyUpdate (applyUpdate (applyUpdate state
                (PlannerAgent.plan svc state)) u) u3) with
          | .error e => .error e
          | .ok u4 =>
              .ok (applyUpdate (applyUpdate (applyUpdate (applyUpdate state
                (PlannerAgent.plan svc state)) u) u3) u4) := by
  rw [runIteration_eq, hu]

theorem runIteration_err (svc : CADServices) (state : AgentState) :
    ∃ e, runIteration svc state = .error e := by
  by_cases h : planTruthy (applyUpdate state (PlannerAgent.plan svc state)).plan = true
  · obtain ⟨e, he⟩ := processing_step_err svc (applyUpdate state (PlannerAgent.plan svc state)) h
    exact ⟨e, by rw [runIteration_eq, he]⟩
  · have hfalse : planTruthy (applyUpdate state (PlannerAgent.plan svc state)).plan = false := by
      cases hb : planTruthy (applyUpdate state (PlannerAgent.plan svc state)).plan
      · rfl
      · exact absurd hb h
    have h2 := runIteration_of_proc_ok svc state _
      (processing_step_falsy svc _ hfalse)
    rw [generator_step_err] at h2
    exact ⟨_, h2⟩

theorem runApp_succ_err (svc : CADServices) (state : AgentState) (fuel : Nat)
    (e : PyErr) (he : runIteration svc state = .error e) :
    runApp svc (fuel + 1) state = .error e := by
  show (match runIteration svc state with
        | .error e => (.error e : Except PyErr AgentState)
        | .ok s' =>
            if should_continue s' = "__end__" then .ok s'
            else runApp svc fuel s') = .error e
  rw [he]

/-- C1: the per-part error handling claim is refuted by an initialisation
bug — `processing_step` writes `outputs[item['id']]` without ever binding
`outputs`, so for every service behaviour (generation succeeding or
raising alike) and every truthy plan whose structure items carry an `id`,
the step raises `NameError` over `outputs` (the `except` handler's own
marker write re-raises it) instead of marking the part and continuing. -/
theorem C1_processing_step_raises (svc : CADServices) (state : AgentState)
    (h : planTruthy state.plan = true)
    (hid : ∀ item ∈ (state.plan.getD {}).structureItems.getD
      ((state.plan.getD {}).parts.getD []), item.id.isSome = true) :
    processing_step svc state = .error (.nameError "outputs") := by
  have hne : ¬ (planTruthy state.plan = false) := by simp [h]
  unfold processing_step
  rw [if_neg hne]
  cases hst : (state.plan.getD {}).structureItems.getD
      ((state.plan.getD {}).parts.getD []) with
  | nil => simp only [hst, procLoop]
  | cons item rest =>
      have hmem : item ∈ (state.plan.getD {}).structureItems.getD
          ((state.plan.getD {}).parts.getD []) := by
        rw [hst]; exact List.mem_cons_self _ _
      obtain ⟨k, hk⟩ := Option.isSome_iff_exists.mp (hid item hmem)
      have hstep := procItemStep_unbound_id svc
        ((state.plan.getD {}).parameters.getD []) item k hk
      simp only [hst, procLoop, hstep]

/-- Structure item used as the C1 failing input. -/
def c1item : PlanItemCAD := { id := some "solid_cup", layer := some "solid" }

/-- Parsed one-part plan used as the C1 failing input. -/
def c1plan : CADPlan := { structureItems := some [c1item] }

/-- State used as the C1 failing input: the `main.py` initial state with a
parsed one-part plan attached. -/
def c1state : AgentState :=
  { user_request := "a mug with a handle", iteration_count := 0, messages := [],
    plan := some c1plan }

/-- Witness for C1 at a concrete service and one-part plan. -/
theorem C1_processing_step_raises_witness :
    processing_step svcTrivial c1state = .error (.nameError "outputs") :=
  C1_processing_step_raises svcTrivial c1state (by decide) (by decide)

/-- C2: the 3-iteration termination claim is refuted outright — for every
service bundle (in particular one whose feedback always contains FAIL)
and any fuel, the orchestrator run raises an uncaught exception during its
first iteration (`outputs` NameError in `processing_step`, `json`
NameError in the generator/inspector, or `AttributeError` on a `None`
plan) and therefore never reaches the `END` state at all, let alone after
exactly 3 iterations with a forced-PASS annotation. -/
theorem C2_workflow_raises (svc : CADServices) (req : String) (fuel : Nat) :
    ∃ e, runApp svc (fuel + 1) (initial_state req) = .error e ∧
      ∀ s, runApp svc (fuel + 1) (initial_state req) ≠ .ok s := by
  obtain ⟨e, he⟩ := runIteration_err svc (initial_state req)
  have h := runApp_succ_err svc (initial_state req) fuel e he
  exact ⟨e, h, fun s hc => by rw [h] at hc; exact Except.noConfusion hc⟩

/-- C5 counterexample: with a planner service whose response fails to
parse, the claim's premise holds, yet the workflow does not halt at the
planner — it proceeds to the generator, which raises `AttributeError`
calling `.get` on the still-`None` plan, so an exception does propagate
out of the workflow. -/
theorem C5_counterexample :
    svcTrivial.parseResp (svcTrivial.planResp
      (initial_state "a mug with a handle").user_request
      (initial_state "a mug with a handle").inspector_feedback) =
      .error "Expecting value: line 1 column 1 (char 0)" ∧
    runApp svcTrivial 1 (initial_state "a mug with a handle") =
      .error (.attributeError "get") :=
  ⟨rfl, rfl⟩

/-- C5 (amended): when the planning service's returned plan fails to
parse, the planner itself is loss-free — it catches the exception and
returns an update carrying only the logged error message, leaving the
stored plan and the iteration count unchanged; but the iteration does not
halt there: the unconditional `planner → processors → generator` edges run
on, and when no previously stored plan exists the generator raises
`AttributeError` (`.get` on `None`), which propagates out of the
workflow. -/
theorem C5_plan_parse_failure (svc : CADServices) (state : AgentState)
    (emsg : String)
    (hparse : svc.parseResp (svc.planResp state.user_request
      state.inspector_feedback) = .error emsg) :
    planner_step svc state = .ok { messages := some ["Planner Error: " ++ emsg] } ∧
    (applyUpdate state { messages := some ["Planner Error: " ++ emsg] }).plan
      = state.plan ∧
    (applyUpdate state { messages := some ["Planner Error: " ++ emsg] }).iteration_count
      = state.iteration_count ∧
    (state.plan = none →
      runIteration svc state = .error (.attributeError "get")) := by
  have hplan : PlannerAgent.plan svc state =
      { messages := some ["Planner Error: " ++ emsg] } := by
    simp only [PlannerAgent.plan, hparse]
  refine ⟨by unfold planner_step; rw [hplan], rfl, rfl, ?_⟩
  intro hnone
  have hsplan : (applyUpdate state (PlannerAgent.plan svc state)).plan = none := by
    rw [hplan]
    exact hnone
  have hfalse : planTruthy (applyUpdate state (PlannerAgent.plan svc state)).plan = false := by
    rw [hsplan]
    rfl
  have h2 := runIteration_of_proc_ok svc state _
    (processing_step_falsy svc _ hfalse)
  rw [generator_step_err] at h2
  have hs2plan : (applyUpdate (applyUpdate state (PlannerAgent.plan svc state))
      { messages := some ["Error: No plan found"] }).plan = none := by
    show (applyUpdate state (PlannerAgent.plan svc state)).plan = none
    exact hsplan
  rw [hs2plan] at h2
  exact h2

/-- Witness for C5 at the concrete failing service and initial state. -/
theorem C5_plan_parse_failure_witness :
    planner_step svcTrivial (initial_state "a mug with a handle") =
      .ok { messages :=
        some ["Planner Error: Expecting value: line 1 column 1 (char 0)"] } ∧
    runIteration svcTrivial (initial_state "a mug with a handle") =
      .error (.attributeError "get") := by
  have h := C5_plan_parse_failure svcTrivial (initial_state "a mug with a handle")
    "Expecting value: line 1 column 1 (char 0)" rfl
  exact ⟨h.1, h.2.2.2 rfl⟩

end LLMCAD
